import Mathlib

/-!
Verification development for the `transform-jsx-to-htm-lite` transform
(`src/packages/wmr/src/lib/transform-jsx-to-htm-lite.js`).

The source text is modelled as a `List Char`; byte offsets of the JavaScript
code become indices into that list.  The embedded comment scanner
`parseMaybeComments` below is a direct translation of the function of the
same name in the source.  The JavaScript `for` loop with a mutable index `i`
is rendered as a recursion over the remaining suffix of the character list
(`rest`, always equal to `code.drop i`); the full list `code` is kept as a
parameter because the absorption heuristics look backwards at absolute
positions `lineStart` and `lineStart + 1`.
-/

/-- Comment span `{start, end}` as produced by the scanner.  The JavaScript
field `end` is called `stop` here because `end` is a Lean keyword. -/
structure Span where
  start : Nat
  stop : Nat
deriving DecidableEq, Repr

/-- Whitespace as matched by the JavaScript regular expression `/\s/`
(ECMAScript WhiteSpace and LineTerminator characters). -/
def isJsWs (c : Char) : Bool :=
  c == ' ' || c == '\t' || c == '\n' || c == '\r' || c.toNat == 0x0b || c.toNat == 0x0c ||
  c.toNat == 0xa0 || c.toNat == 0x1680 || (0x2000 ≤ c.toNat && c.toNat ≤ 0x200a) ||
  c.toNat == 0x2028 || c.toNat == 0x2029 || c.toNat == 0x202f || c.toNat == 0x205f ||
  c.toNat == 0x3000 || c.toNat == 0xfeff

/-- Scanner state: the constants `NONE = 0`, `SINGLE = 1`, `MULTI = 2` of
`parseMaybeComments`. -/
inductive ScanState where
  | NONE
  | SINGLE
  | MULTI
deriving DecidableEq, Repr

/-- Truthiness of `code.slice(lineStart, commentStart).match(/^\s+/)`:
the slice is non-empty (guarded by `lineStart < commentStart` at the call
site) and its first character, `code[lineStart]`, is whitespace. -/
def sliceStartsWs (code : List Char) (ls : Nat) : Bool :=
  match code.get? ls with
  | some c => isJsWs c
  | none => false

/-- Truthiness of `code.slice(lineStart, commentStart).match(/^\n\s+/)`:
the slice starts with a newline followed by at least one whitespace
character (the second character must still lie inside the slice, i.e.
`lineStart + 1 < commentStart`, which is checked at the call site). -/
def sliceStartsNlWs (code : List Char) (ls : Nat) : Bool :=
  match code.get? ls, code.get? (ls + 1) with
  | some c0, some c1 => c0 == '\n' && isJsWs c1
  | _, _ => false

/-- Indentation absorption test for a line comment (`type === SINGLE`):
`lineStart < commentStart` and the slice between them matches `/^\s+/`. -/
def absorbLine (code : List Char) (ls cs : Nat) : Bool :=
  decide (ls < cs) && sliceStartsWs code ls

/-- Indentation absorption test for a block comment (`type === MULTI`):
`lineStart < commentStart` and the slice between them matches `/^\n\s+/`. -/
def absorbBlock (code : List Char) (ls cs : Nat) : Bool :=
  decide (ls + 1 < cs) && sliceStartsNlWs code ls

/-- The loop body of `parseMaybeComments`.  `code` is the whole input,
`rest` the suffix starting at index `i` (`rest = code.drop i`), `cs` the
variable `commentStart`, `ls` the variable `lineStart`.  Each JavaScript
iteration ends with the loop increment `i++`, so after a span is pushed
with `i = end` the next examined position is `end + 1` — one character past
the span — which the recursion reproduces by dropping one extra element.
`charAt` of an out-of-range index yields the empty string in JavaScript,
which is equal to none of the compared characters; the `head?`/`get?`
comparisons and the `[]` match arms reproduce that. -/
def scanLoop (code : List Char) : List Char → Nat → Nat → Nat → ScanState → List Span
  | [], _, _, _, _ => []
  | ch :: rest, i, cs, ls, .SINGLE =>
    if ch == '\n' || ch == '\r' then
      let cs' := if absorbLine code ls cs then ls + 1 else cs
      ⟨cs', i + 1⟩ ::
        (match rest with
         | [] => []
         | _ :: rest2 => scanLoop code rest2 (i + 2) cs' i .NONE)
    else scanLoop code rest (i + 1) cs ls .SINGLE
  | ch :: rest, i, cs, ls, .MULTI =>
    if ch == '*' && rest.head? == some '/' then
      let cs' := if absorbBlock code ls cs then ls + 1 else cs
      match rest with
      | [] => []
      | _ :: rest2 =>
        match rest2 with
        | [] => [⟨cs', i + 2⟩]
        | c2 :: rest3 =>
          if c2 == '\n' || c2 == '\r' then
            ⟨cs', i + 3⟩ ::
              (match rest3 with
               | [] => []
               | _ :: rest4 => scanLoop code rest4 (i + 4) cs' ls .NONE)
          else
            ⟨cs', i + 2⟩ :: scanLoop code rest3 (i + 3) cs' ls .NONE
    else scanLoop code rest (i + 1) cs ls .MULTI
  | ch :: rest, i, cs, ls, .NONE =>
    if ch == '/' then
      if rest.head? == some '/' then
        match rest with
        | [] => []
        | _ :: rest2 => scanLoop code rest2 (i + 2) i ls .SINGLE
      else if rest.head? == some '*' then
        match rest with
        | [] => []
        | _ :: rest2 => scanLoop code rest2 (i + 2) i ls .MULTI
      else
        -- a lone '/' matches no branch of the if/else-if chain: the loop continues
        scanLoop code rest (i + 1) cs ls .NONE
    else if ch == '\n' then scanLoop code rest (i + 1) cs i .NONE
    else if isJsWs ch then scanLoop code rest (i + 1) (cs + 1) ls .NONE
    else []

/-- Translation of `parseMaybeComments(code, start)`: scan forward from
`start` with `commentStart = 0`, `lineStart = start`, `type = NONE`. -/
def parseMaybeComments (code : List Char) (start : Nat) : List Span :=
  scanLoop code (code.drop start) start 0 start .NONE

-- Sanity checks of the embedding against hand-executed runs of the source.
example : parseMaybeComments "//a\n".data 0 = [⟨0, 4⟩] := by decide
example : parseMaybeComments "/* hi */ x".data 0 = [⟨0, 8⟩] := by decide
example : parseMaybeComments "x // c".data 0 = [] := by decide
-- Two line comments separated by a single space: both found, adjacent spans.
example : parseMaybeComments "//a\n //b\n".data 0 = [⟨0, 4⟩, ⟨4, 9⟩] := by decide
-- Two immediately adjacent line comments: the second one is lost because the
-- character at the previous span's end is skipped by the loop increment.
example : parseMaybeComments "//a\n//b\n".data 0 = [⟨0, 4⟩] := by decide
-- Scenario 4 interior: scanning from the end of the tag name.
example : parseMaybeComments "<div\n  // comment\n  id=\"foo\"\n/>".data 4 =
    [⟨5, 18⟩] := by decide
-- Overlapping spans out of order (block-comment absorption reuses a stale
-- line start).
example : parseMaybeComments "  /*a*/ //b\n".data 0 = [⟨2, 7⟩, ⟨1, 12⟩] := by decide

/-! ### Basic list helpers -/

/-- Relating a non-empty `drop` to indexing: used to transport the structural
recursion over the remaining suffix back to absolute positions. -/
theorem drop_cons_split {α : Type} (code : List α) :
    ∀ (i : Nat) (ch : α) (rest : List α),
      code.drop i = ch :: rest →
      code.get? i = some ch ∧ code.drop (i + 1) = rest ∧ i < code.length := by
  induction code with
  | nil => intro i ch rest h; simp at h
  | cons c cs ih =>
    intro i ch rest h
    cases i with
    | zero =>
      simp at h
      obtain ⟨h1, h2⟩ := h
      subst h1; subst h2
      simp
    | succ i =>
      simp only [List.drop_succ_cons] at h
      obtain ⟨h1, h2, h3⟩ := ih i ch rest h
      refine ⟨h1, ?_, by simp; omega⟩
      simpa using h2

/-- The last element of `l ++ [a]` is `a`. -/
theorem getLast?_append_singleton {α : Type} (l : List α) (a : α) :
    (l ++ [a]).getLast? = some a := by
  induction l with
  | nil => rfl
  | cons x xs ih =>
    cases xs with
    | nil => rfl
    | cons y ys =>
      simp only [List.cons_append, List.getLast?_cons_cons]
      simpa only [List.cons_append] using ih

/-! ### Scanner stepping lemmas -/

set_option maxHeartbeats 1000000 in
/-- Running out of input stops the scan in any state, emitting nothing. -/
theorem scanLoop_nil (code : List Char) (i cs ls : Nat) (ty : ScanState) :
    scanLoop code [] i cs ls ty = [] := by
  rw [scanLoop]

/-- General unfolding of one `NONE`-state step (the generated equations
split on whether the tail is empty; this lemma merges them again). -/
theorem scanLoop_none_cons (code : List Char) (ch : Char) (rest : List Char) (i cs ls : Nat) :
    scanLoop code (ch :: rest) i cs ls .NONE =
      if ch == '/' then
        if rest.head? == some '/' then
          match rest with
          | [] => []
          | _ :: rest2 => scanLoop code rest2 (i + 2) i ls .SINGLE
        else if rest.head? == some '*' then
          match rest with
          | [] => []
          | _ :: rest2 => scanLoop code rest2 (i + 2) i ls .MULTI
        else
          scanLoop code rest (i + 1) cs ls .NONE
      else if ch == '\n' then scanLoop code rest (i + 1) cs i .NONE
      else if isJsWs ch then scanLoop code rest (i + 1) (cs + 1) ls .NONE
      else [] := by
  cases rest with
  | nil =>
    conv_lhs => rw [scanLoop]
  | cons r1 rest2 =>
    conv_lhs => rw [scanLoop]

/-- Characters other than newline and carriage return are consumed inside a
line comment without any other effect on the scanner state. -/
theorem scanLoop_single_through (code : List Char) :
    ∀ (body tail : List Char) (i cs ls : Nat),
      (∀ x ∈ body, x ≠ '\n' ∧ x ≠ '\r') →
      scanLoop code (body ++ tail) i cs ls .SINGLE =
        scanLoop code tail (i + body.length) cs ls .SINGLE := by
  intro body
  induction body with
  | nil => intro tail i cs ls _; simp
  | cons ch rest ih =>
    intro tail i cs ls h
    obtain ⟨h1, h2⟩ := h ch (by simp)
    have hc : (ch == '\n' || ch == '\r') = false := by simp [h1, h2]
    rw [List.cons_append]
    conv_lhs => rw [scanLoop]
    rw [hc]
    simp only [Bool.false_eq_true, if_false]
    have h3 : i + (ch :: rest).length = (i + 1) + rest.length := by simp; omega
    rw [h3]
    exact ih tail (i + 1) cs ls (fun x hx => h x (by simp [hx]))

/-- Closing a line comment: the span is pushed with `end` one past the
newline, `lineStart` moves to the newline, and (because of the loop
increment after `i = end`) scanning resumes at `end + 1`. -/
theorem scanLoop_single_close_cons (code : List Char) (c r0 : Char) (rest2 : List Char)
    (i cs ls : Nat) (hc : (c == '\n' || c == '\r') = true) :
    scanLoop code (c :: r0 :: rest2) i cs ls .SINGLE =
      ⟨if absorbLine code ls cs then ls + 1 else cs, i + 1⟩ ::
        scanLoop code rest2 (i + 2)
          (if absorbLine code ls cs then ls + 1 else cs) i .NONE := by
  conv_lhs => rw [scanLoop]
  rw [hc]
  simp

/-- Closing a line comment whose newline is the final input character. -/
theorem scanLoop_single_close_nil (code : List Char) (c : Char) (i cs ls : Nat)
    (hc : (c == '\n' || c == '\r') = true) :
    scanLoop code [c] i cs ls .SINGLE =
      [⟨if absorbLine code ls cs then ls + 1 else cs, i + 1⟩] := by
  conv_lhs => rw [scanLoop]
  rw [hc]
  simp

/-- A line comment that never ends produces no span: the loop runs out of
input while still in the `SINGLE` state. -/
theorem scanLoop_single_unterminated (code : List Char) (rest : List Char) (i cs ls : Nat)
    (h : ∀ x ∈ rest, x ≠ '\n' ∧ x ≠ '\r') :
    scanLoop code rest i cs ls .SINGLE = [] := by
  have := scanLoop_single_through code rest [] i cs ls h
  simpa [scanLoop_nil] using this

/-- Presence of a `*/` terminator somewhere in the remaining input. -/
def hasBlockEnd : List Char → Bool
  | [] => false
  | ch :: rest => (ch == '*' && rest.head? == some '/') || hasBlockEnd rest

/-- A block comment that never ends produces no span: the loop runs out of
input while still in the `MULTI` state. -/
theorem scanLoop_multi_unterminated (code : List Char) :
    ∀ (rest : List Char) (i cs ls : Nat),
      hasBlockEnd rest = false →
      scanLoop code rest i cs ls .MULTI = [] := by
  intro rest
  induction rest with
  | nil => intro i cs ls _; rw [scanLoop]
  | cons ch rest ih =>
    intro i cs ls h
    simp only [hasBlockEnd, Bool.or_eq_false_iff] at h
    obtain ⟨h1, h2⟩ := h
    conv_lhs => rw [scanLoop]
    rw [h1]
    simp only [Bool.false_eq_true, if_false]
    exact ih (i + 1) cs ls h2

/-- Whitespace other than a newline, in state `NONE`, only bumps the
provisional `commentStart` counter (whose value is dead there: it is
overwritten whenever a comment actually starts). -/
theorem scanLoop_none_ws_run (code : List Char) :
    ∀ (ws tail : List Char) (i cs ls : Nat),
      (∀ x ∈ ws, isJsWs x = true ∧ x ≠ '\n') →
      scanLoop code (ws ++ tail) i cs ls .NONE =
        scanLoop code tail (i + ws.length) (cs + ws.length) ls .NONE := by
  intro ws
  induction ws with
  | nil => intro tail i cs ls _; simp
  | cons ch rest ih =>
    intro tail i cs ls h
    obtain ⟨hws, hnl⟩ := h ch (by simp)
    have hslash : (ch == '/') = false := by
      simp only [beq_eq_false_iff_ne, ne_eq]
      intro he; subst he; simp [isJsWs] at hws
    have hnl' : (ch == '\n') = false := by simp [hnl]
    rw [List.cons_append, scanLoop_none_cons, hslash, hnl', hws]
    simp only [Bool.false_eq_true, if_false, if_true]
    have h3 : i + (ch :: rest).length = (i + 1) + rest.length := by simp; omega
    have h4 : cs + (ch :: rest).length = (cs + 1) + rest.length := by simp; omega
    rw [h3, h4]
    exact ih tail (i + 1) (cs + 1) ls (fun x hx => h x (by simp [hx]))

/-- A newline in state `NONE` moves the `lineStart` marker to it. -/
theorem scanLoop_none_newline (code : List Char) (rest : List Char) (i cs ls : Nat) :
    scanLoop code ('\n' :: rest) i cs ls .NONE =
      scanLoop code rest (i + 1) cs i .NONE := by
  rw [scanLoop_none_cons]
  simp

/-- Seeing `//` in state `NONE` starts a line comment at `i` (the branch
body runs `i++` and the loop adds one more). -/
theorem scanLoop_none_line_start (code : List Char) (rest : List Char) (i cs ls : Nat) :
    scanLoop code ('/' :: '/' :: rest) i cs ls .NONE =
      scanLoop code rest (i + 2) i ls .SINGLE := by
  rw [scanLoop_none_cons]
  simp

/-- Seeing `/*` in state `NONE` starts a block comment at `i`. -/
theorem scanLoop_none_block_start (code : List Char) (rest : List Char) (i cs ls : Nat) :
    scanLoop code ('/' :: '*' :: rest) i cs ls .NONE =
      scanLoop code rest (i + 2) i ls .MULTI := by
  rw [scanLoop_none_cons]
  simp

/-- A character that is not whitespace, not `/`, and not a comment
continuation breaks the scan. -/
theorem scanLoop_none_break (code : List Char) (ch : Char) (rest : List Char) (i cs ls : Nat)
    (h1 : (ch == '/') = false) (h2 : isJsWs ch = false) :
    scanLoop code (ch :: rest) i cs ls .NONE = [] := by
  have hnl : (ch == '\n') = false := by
    cases hh : ch == '\n'
    · rfl
    · exfalso; rw [beq_iff_eq] at hh; subst hh; simp [isJsWs] at h2
  rw [scanLoop_none_cons, h1, hnl, h2]
  simp

/-! ### Span bounds and ordering -/

/-- Bounds invariant of the scan loop.  Under the loop invariants — the
suffix is the one at index `i`, positions never precede the original start
`s0`, and in a comment state `commentStart` was set at a position before
the current one — every emitted span starts at or after `s0`, is non-empty,
ends within the input, and ends past the current position. -/
theorem scanLoop_span_bounds (code : List Char) (s0 : Nat) :
    ∀ (n : Nat) (rest : List Char) (i cs ls : Nat) (ty : ScanState),
      rest.length ≤ n → code.drop i = rest → s0 ≤ i → s0 ≤ ls →
      (ty ≠ .NONE → s0 ≤ cs ∧ cs + 1 ≤ i) →
      ∀ sp ∈ scanLoop code rest i cs ls ty,
        s0 ≤ sp.start ∧ sp.start < sp.stop ∧ sp.stop ≤ code.length ∧ i < sp.stop := by
  intro n
  induction n with
  | zero =>
    intro rest i cs ls ty hn hdrop hi hls hcs sp hsp
    have hr : rest = [] := List.length_eq_zero.mp (Nat.le_zero.mp hn)
    subst hr
    rw [scanLoop_nil] at hsp
    simp at hsp
  | succ n ih =>
    intro rest i cs ls ty hn hdrop hi hls hcs sp hsp
    cases rest with
    | nil => rw [scanLoop_nil] at hsp; simp at hsp
    | cons ch rest =>
      obtain ⟨hget, hdrop1, hlen⟩ := drop_cons_split code i ch rest hdrop
      have hn1 : rest.length ≤ n := by simp at hn; omega
      cases ty with
      | SINGLE =>
        obtain ⟨hcs0, hcs1⟩ := hcs (by simp)
        rw [scanLoop] at hsp
        cases hcase : (ch == '\n' || ch == '\r') with
        | true =>
          rw [hcase] at hsp
          simp only [if_true] at hsp
          have hab1 : s0 ≤ (if absorbLine code ls cs then ls + 1 else cs) := by
            cases hab : absorbLine code ls cs
            · simpa using hcs0
            · simp; omega
          have hab2 : (if absorbLine code ls cs then ls + 1 else cs) < i + 1 := by
            cases hab : absorbLine code ls cs
            · simp; omega
            · simp only [absorbLine, Bool.and_eq_true, decide_eq_true_eq] at hab
              simp; omega
          cases rest with
          | nil =>
            simp only [List.mem_singleton] at hsp
            subst hsp
            exact ⟨hab1, hab2, by simpa using hlen, by simp⟩
          | cons r0 rest2 =>
            simp only [List.mem_cons] at hsp
            rcases hsp with hsp | hsp
            · subst hsp
              exact ⟨hab1, hab2, by simpa using hlen, by simp⟩
            · obtain ⟨hg2, hd2, hl2⟩ := drop_cons_split code (i + 1) r0 rest2 hdrop1
              have := ih rest2 (i + 2) (if absorbLine code ls cs then ls + 1 else cs) i .NONE
                (by simp at hn1; omega) (by simpa using hd2) (by omega) (by omega)
                (by intro hne; exact absurd rfl hne) sp hsp
              exact ⟨this.1, this.2.1, this.2.2.1, by omega⟩
        | false =>
          rw [hcase] at hsp
          simp only [Bool.false_eq_true, if_false] at hsp
          have := ih rest (i + 1) cs ls .SINGLE hn1 hdrop1 (by omega) hls
            (by intro _; exact ⟨hcs0, by omega⟩) sp hsp
          exact ⟨this.1, this.2.1, this.2.2.1, by omega⟩
      | MULTI =>
        obtain ⟨hcs0, hcs1⟩ := hcs (by simp)
        rw [scanLoop] at hsp
        cases hcase : (ch == '*' && rest.head? == some '/') with
        | false =>
          rw [hcase] at hsp
          simp only [Bool.false_eq_true, if_false] at hsp
          have := ih rest (i + 1) cs ls .MULTI hn1 hdrop1 (by omega) hls
            (by intro _; exact ⟨hcs0, by omega⟩) sp hsp
          exact ⟨this.1, this.2.1, this.2.2.1, by omega⟩
        | true =>
          rw [hcase] at hsp
          simp only [if_true] at hsp
          have hab1 : s0 ≤ (if absorbBlock code ls cs then ls + 1 else cs) := by
            cases hab : absorbBlock code ls cs
            · simpa using hcs0
            · simp; omega
          have hab2 : (if absorbBlock code ls cs then ls + 1 else cs) < i + 2 := by
            cases hab : absorbBlock code ls cs
            · simp; omega
            · simp only [absorbBlock, Bool.and_eq_true, decide_eq_true_eq] at hab
              simp; omega
          cases rest with
          | nil => simp at hcase
          | cons r1 rest2 =>
            obtain ⟨hg2, hd2, hl2⟩ := drop_cons_split code (i + 1) r1 rest2 hdrop1
            cases rest2 with
            | nil =>
              simp only [List.mem_singleton] at hsp
              subst hsp
              exact ⟨hab1, hab2, by simpa using hl2, by simp⟩
            | cons c2 rest3 =>
              obtain ⟨hg3, hd3, hl3⟩ := drop_cons_split code (i + 2) c2 rest3 hd2
              cases hc2 : (c2 == '\n' || c2 == '\r') with
              | true =>
                rw [show (match r1 :: c2 :: rest3 with
                    | [] => ([] : List Span)
                    | _ :: rest2 =>
                      match rest2 with
                      | [] => [⟨if absorbBlock code ls cs then ls + 1 else cs, i + 2⟩]
                      | c2 :: rest3 =>
                        if c2 == '\n' || c2 == '\r' then
                          ⟨if absorbBlock code ls cs then ls + 1 else cs, i + 3⟩ ::
                            (match rest3 with
                             | [] => []
                             | _ :: rest4 => scanLoop code rest4 (i + 4)
                                 (if absorbBlock code ls cs then ls + 1 else cs) ls .NONE)
                        else
                          ⟨if absorbBlock code ls cs then ls + 1 else cs, i + 2⟩ ::
                            scanLoop code rest3 (i + 3)
                              (if absorbBlock code ls cs then ls + 1 else cs) ls .NONE) =
                    (if c2 == '\n' || c2 == '\r' then
                       ⟨if absorbBlock code ls cs then ls + 1 else cs, i + 3⟩ ::
                         (match rest3 with
                          | [] => []
                          | _ :: rest4 => scanLoop code rest4 (i + 4)
                              (if absorbBlock code ls cs then ls + 1 else cs) ls .NONE)
                     else
                       ⟨if absorbBlock code ls cs then ls + 1 else cs, i + 2⟩ ::
                         scanLoop code rest3 (i + 3)
                           (if absorbBlock code ls cs then ls + 1 else cs) ls .NONE)
                    from rfl, hc2] at hsp
                simp only [if_true, List.mem_cons] at hsp
                rcases hsp with hsp | hsp
                · subst hsp
                  exact ⟨hab1, by dsimp only; omega, by simpa using hl3, by simp⟩
                · cases rest3 with
                  | nil => simp at hsp
                  | cons r3 rest4 =>
                    obtain ⟨hg4, hd4, hl4⟩ := drop_cons_split code (i + 3) r3 rest4 hd3
                    have := ih rest4 (i + 4)
                      (if absorbBlock code ls cs then ls + 1 else cs) ls .NONE
                      (by simp at hn1; omega) hd4 (by omega) hls
                      (by intro hne; exact absurd rfl hne) sp hsp
                    exact ⟨this.1, this.2.1, this.2.2.1, by omega⟩
              | false =>
                rw [show (match r1 :: c2 :: rest3 with
                    | [] => ([] : List Span)
                    | _ :: rest2 =>
                      match rest2 with
                      | [] => [⟨if absorbBlock code ls cs then ls + 1 else cs, i + 2⟩]
                      | c2 :: rest3 =>
                        if c2 == '\n' || c2 == '\r' then
                          ⟨if absorbBlock code ls cs then ls + 1 else cs, i + 3⟩ ::
                            (match rest3 with
                             | [] => []
                             | _ :: rest4 => scanLoop code rest4 (i + 4)
                                 (if absorbBlock code ls cs then ls + 1 else cs) ls .NONE)
                        else
                          ⟨if absorbBlock code ls cs then ls + 1 else cs, i + 2⟩ ::
                            scanLoop code rest3 (i + 3)
                              (if absorbBlock code ls cs then ls + 1 else cs) ls .NONE) =
                    (if c2 == '\n' || c2 == '\r' then
                       ⟨if absorbBlock code ls cs then ls + 1 else cs, i + 3⟩ ::
                         (match rest3 with
                          | [] => []
                          | _ :: rest4 => scanLoop code rest4 (i + 4)
                              (if absorbBlock code ls cs then ls + 1 else cs) ls .NONE)
                     else
                       ⟨if absorbBlock code ls cs then ls + 1 else cs, i + 2⟩ ::
                         scanLoop code rest3 (i + 3)
                           (if absorbBlock code ls cs then ls + 1 else cs) ls .NONE)
                    from rfl, hc2] at hsp
                simp only [Bool.false_eq_true, if_false, List.mem_cons] at hsp
                rcases hsp with hsp | hsp
                · subst hsp
                  exact ⟨hab1, hab2, by simpa using hl2, by simp⟩
                · have := ih rest3 (i + 3)
                    (if absorbBlock code ls cs then ls + 1 else cs) ls .NONE
                    (by simp at hn1; omega) hd3 (by omega) hls
                    (by intro hne; exact absurd rfl hne) sp hsp
                  exact ⟨this.1, this.2.1, this.2.2.1, by omega⟩
      | NONE =>
        rw [scanLoop_none_cons] at hsp
        cases hslash : (ch == '/') with
        | true =>
          rw [hslash] at hsp
          simp only [if_true] at hsp
          cases hh : (rest.head? == some '/') with
          | true =>
            rw [hh] at hsp
            simp only [if_true] at hsp
            cases rest with
            | nil => simp at hh
            | cons r1 rest2 =>
              obtain ⟨hg2, hd2, hl2⟩ := drop_cons_split code (i + 1) r1 rest2 hdrop1
              have := ih rest2 (i + 2) i ls .SINGLE (by simp at hn1; omega) hd2
                (by omega) hls (by intro _; exact ⟨hi, by omega⟩) sp hsp
              exact ⟨this.1, this.2.1, this.2.2.1, by omega⟩
          | false =>
            rw [hh] at hsp
            simp only [Bool.false_eq_true, if_false] at hsp
            cases hh2 : (rest.head? == some '*') with
            | true =>
              rw [hh2] at hsp
              simp only [if_true] at hsp
              cases rest with
              | nil => simp at hh2
              | cons r1 rest2 =>
                obtain ⟨hg2, hd2, hl2⟩ := drop_cons_split code (i + 1) r1 rest2 hdrop1
                have := ih rest2 (i + 2) i ls .MULTI (by simp at hn1; omega) hd2
                  (by omega) hls (by intro _; exact ⟨hi, by omega⟩) sp hsp
                exact ⟨this.1, this.2.1, this.2.2.1, by omega⟩
            | false =>
              rw [hh2] at hsp
              simp only [Bool.false_eq_true, if_false] at hsp
              have := ih rest (i + 1) cs ls .NONE hn1 hdrop1 (by omega) hls
                (by intro hne; exact absurd rfl hne) sp hsp
              exact ⟨this.1, this.2.1, this.2.2.1, by omega⟩
        | false =>
          rw [hslash] at hsp
          simp only [Bool.false_eq_true, if_false] at hsp
          cases hnl : (ch == '\n') with
          | true =>
            rw [hnl] at hsp
            simp only [if_true] at hsp
            have := ih rest (i + 1) cs i .NONE hn1 hdrop1 (by omega) (by omega)
              (by intro hne; exact absurd rfl hne) sp hsp
            exact ⟨this.1, this.2.1, this.2.2.1, by omega⟩
          | false =>
            rw [hnl] at hsp
            simp only [Bool.false_eq_true, if_false] at hsp
            cases hws : isJsWs ch with
            | true =>
              rw [hws] at hsp
              simp only [if_true] at hsp
              have := ih rest (i + 1) (cs + 1) ls .NONE hn1 hdrop1 (by omega) hls
                (by intro hne; exact absurd rfl hne) sp hsp
              exact ⟨this.1, this.2.1, this.2.2.1, by omega⟩
            | false =>
              rw [hws] at hsp
              simp at hsp

/-- The `end` offsets of the emitted spans are strictly increasing: each
span is pushed with `end` past the current position, and scanning resumes
beyond it. -/
theorem scanLoop_stops_sorted (code : List Char) (s0 : Nat) :
    ∀ (n : Nat) (rest : List Char) (i cs ls : Nat) (ty : ScanState),
      rest.length ≤ n → code.drop i = rest → s0 ≤ i → s0 ≤ ls →
      (ty ≠ .NONE → s0 ≤ cs ∧ cs + 1 ≤ i) →
      List.Pairwise (· < ·) ((scanLoop code rest i cs ls ty).map Span.stop) := by
  intro n
  induction n with
  | zero =>
    intro rest i cs ls ty hn hdrop hi hls hcs
    have hr : rest = [] := List.length_eq_zero.mp (Nat.le_zero.mp hn)
    subst hr
    rw [scanLoop_nil]
    simp
  | succ n ih =>
    intro rest i cs ls ty hn hdrop hi hls hcs
    cases rest with
    | nil => rw [scanLoop_nil]; simp
    | cons ch rest =>
      obtain ⟨hget, hdrop1, hlen⟩ := drop_cons_split code i ch rest hdrop
      have hn1 : rest.length ≤ n := by simp at hn; omega
      cases ty with
      | SINGLE =>
        obtain ⟨hcs0, hcs1⟩ := hcs (by simp)
        rw [scanLoop]
        cases hcase : (ch == '\n' || ch == '\r') with
        | true =>
          simp only [if_true]
          cases rest with
          | nil => simp
          | cons r0 rest2 =>
            obtain ⟨hg2, hd2, hl2⟩ := drop_cons_split code (i + 1) r0 rest2 hdrop1
            simp only [List.map_cons, List.pairwise_cons]
            constructor
            · intro b hb
              obtain ⟨sp, hsp, hrfl⟩ := List.mem_map.mp hb
              have := scanLoop_span_bounds code s0 rest2.length rest2 (i + 2)
                (if absorbLine code ls cs then ls + 1 else cs) i .NONE
                le_rfl (by simpa using hd2) (by omega) (by omega)
                (by intro hne; exact absurd rfl hne) sp hsp
              omega
            · exact ih rest2 (i + 2) (if absorbLine code ls cs then ls + 1 else cs) i .NONE
                (by simp at hn1; omega) (by simpa using hd2) (by omega) (by omega)
                (by intro hne; exact absurd rfl hne)
        | false =>
          simp only [Bool.false_eq_true, if_false]
          exact ih rest (i + 1) cs ls .SINGLE hn1 hdrop1 (by omega) hls
            (by intro _; exact ⟨hcs0, by omega⟩)
      | MULTI =>
        obtain ⟨hcs0, hcs1⟩ := hcs (by simp)
        rw [scanLoop]
        cases hcase : (ch == '*' && rest.head? == some '/') with
        | false =>
          simp only [Bool.false_eq_true, if_false]
          exact ih rest (i + 1) cs ls .MULTI hn1 hdrop1 (by omega) hls
            (by intro _; exact ⟨hcs0, by omega⟩)
        | true =>
          simp only [if_true]
          cases rest with
          | nil => simp at hcase
          | cons r1 rest2 =>
            obtain ⟨hg2, hd2, hl2⟩ := drop_cons_split code (i + 1) r1 rest2 hdrop1
            cases rest2 with
            | nil => simp
            | cons c2 rest3 =>
              obtain ⟨hg3, hd3, hl3⟩ := drop_cons_split code (i + 2) c2 rest3 hd2
              rw [show (match r1 :: c2 :: rest3 with
                  | [] => ([] : List Span)
                  | _ :: rest2 =>
                    match rest2 with
                    | [] => [⟨if absorbBlock code ls cs then ls + 1 else cs, i + 2⟩]
                    | c2 :: rest3 =>
                      if c2 == '\n' || c2 == '\r' then
                        ⟨if absorbBlock code ls cs then ls + 1 else cs, i + 3⟩ ::
                          (match rest3 with
                           | [] => []
                           | _ :: rest4 => scanLoop code rest4 (i + 4)
                               (if absorbBlock code ls cs then ls + 1 else cs) ls .NONE)
                      else
                        ⟨if absorbBlock code ls cs then ls + 1 else cs, i + 2⟩ ::
                          scanLoop code rest3 (i + 3)
                            (if absorbBlock code ls cs then ls + 1 else cs) ls .NONE) =
                  (if c2 == '\n' || c2 == '\r' then
                     ⟨if absorbBlock code ls cs then ls + 1 else cs, i + 3⟩ ::
                       (match rest3 with
                        | [] => []
                        | _ :: rest4 => scanLoop code rest4 (i + 4)
                            (if absorbBlock code ls cs then ls + 1 else cs) ls .NONE)
                   else
                     ⟨if absorbBlock code ls cs then ls + 1 else cs, i + 2⟩ ::
                       scanLoop code rest3 (i + 3)
                         (if absorbBlock code ls cs then ls + 1 else cs) ls .NONE)
                  from rfl]
              rcases Bool.eq_false_or_eq_true (c2 == '\n' || c2 == '\r') with hc2 | hc2
              · rw [hc2]
                simp only [if_true]
                cases rest3 with
                | nil => simp
                | cons r3 rest4 =>
                  obtain ⟨hg4, hd4, hl4⟩ := drop_cons_split code (i + 3) r3 rest4 hd3
                  simp only [List.map_cons, List.pairwise_cons]
                  constructor
                  · intro b hb
                    obtain ⟨sp, hsp, hrfl⟩ := List.mem_map.mp hb
                    have := scanLoop_span_bounds code s0 rest4.length rest4 (i + 4)
                      (if absorbBlock code ls cs then ls + 1 else cs) ls .NONE
                      le_rfl hd4 (by omega) hls
                      (by intro hne; exact absurd rfl hne) sp hsp
                    omega
                  · exact ih rest4 (i + 4)
                      (if absorbBlock code ls cs then ls + 1 else cs) ls .NONE
                      (by simp at hn1; omega) hd4 (by omega) hls
                      (by intro hne; exact absurd rfl hne)
              · rw [hc2]
                simp only [Bool.false_eq_true, if_false]
                simp only [List.map_cons, List.pairwise_cons]
                constructor
                · intro b hb
                  obtain ⟨sp, hsp, hrfl⟩ := List.mem_map.mp hb
                  have := scanLoop_span_bounds code s0 rest3.length rest3 (i + 3)
                    (if absorbBlock code ls cs then ls + 1 else cs) ls .NONE
                    le_rfl hd3 (by omega) hls
                    (by intro hne; exact absurd rfl hne) sp hsp
                  omega
                · exact ih rest3 (i + 3)
                    (if absorbBlock code ls cs then ls + 1 else cs) ls .NONE
                    (by simp at hn1; omega) hd3 (by omega) hls
                    (by intro hne; exact absurd rfl hne)
      | NONE =>
        rw [scanLoop_none_cons]
        cases hslash : (ch == '/') with
        | true =>
          simp only [if_true]
          cases hh : (rest.head? == some '/') with
          | true =>
            simp only [if_true]
            cases rest with
            | nil => simp
            | cons r1 rest2 =>
              obtain ⟨hg2, hd2, hl2⟩ := drop_cons_split code (i + 1) r1 rest2 hdrop1
              exact ih rest2 (i + 2) i ls .SINGLE (by simp at hn1; omega) hd2
                (by omega) hls (by intro _; exact ⟨hi, by omega⟩)
          | false =>
            simp only [Bool.false_eq_true, if_false]
            cases hh2 : (rest.head? == some '*') with
            | true =>
              simp only [if_true]
              cases rest with
              | nil => simp
              | cons r1 rest2 =>
                obtain ⟨hg2, hd2, hl2⟩ := drop_cons_split code (i + 1) r1 rest2 hdrop1
                exact ih rest2 (i + 2) i ls .MULTI (by simp at hn1; omega) hd2
                  (by omega) hls (by intro _; exact ⟨hi, by omega⟩)
            | false =>
              simp only [Bool.false_eq_true, if_false]
              exact ih rest (i + 1) cs ls .NONE hn1 hdrop1 (by omega) hls
                (by intro hne; exact absurd rfl hne)
        | false =>
          simp only [Bool.false_eq_true, if_false]
          cases hnl : (ch == '\n') with
          | true =>
            simp only [if_true]
            exact ih rest (i + 1) cs i .NONE hn1 hdrop1 (by omega) (by omega)
              (by intro hne; exact absurd rfl hne)
          | false =>
            simp only [Bool.false_eq_true, if_false]
            cases hws : isJsWs ch with
            | true =>
              simp only [if_true]
              exact ih rest (i + 1) (cs + 1) ls .NONE hn1 hdrop1 (by omega) hls
                (by intro hne; exact absurd rfl hne)
            | false =>
              simp only [Bool.false_eq_true, if_false]
              simp

/-- A `/` that opens neither `//` nor `/*` matches no branch of the
if/else-if chain, so the loop just moves on. -/
theorem scanLoop_none_slash_other (code : List Char) (rest : List Char) (i cs ls : Nat)
    (h1 : (rest.head? == some '/') = false) (h2 : (rest.head? == some '*') = false) :
    scanLoop code ('/' :: rest) i cs ls .NONE =
      scanLoop code rest (i + 1) cs ls .NONE := by
  rw [scanLoop_none_cons, h1, h2]
  simp

/-- Evaluating the line-absorption head test from a known character. -/
theorem sliceStartsWs_of_get (code : List Char) (ls : Nat) (c : Char)
    (h : code.get? ls = some c) (hws : isJsWs c = true) :
    sliceStartsWs code ls = true := by
  have h' : code[ls]? = some c := by simpa [List.get?_eq_getElem?] using h
  simp [sliceStartsWs, h', hws]

/-- Two line comments separated by a single space both produce spans, and
the second span's indentation absorption pulls its start back to the first
span's end. -/
theorem parseMaybeComments_sep_space (a b : List Char)
    (ha : ∀ c ∈ a, c ≠ '\n' ∧ c ≠ '\r') (hb : ∀ c ∈ b, c ≠ '\n' ∧ c ≠ '\r') :
    parseMaybeComments ('/' :: '/' :: a ++ '\n' :: ' ' :: '/' :: '/' :: b ++ ['\n']) 0 =
      [⟨0, a.length + 3⟩, ⟨a.length + 3, a.length + b.length + 7⟩] := by
  have hget : ('/' :: '/' :: a ++ '\n' :: ' ' :: '/' :: '/' :: b ++ ['\n']).get? (a.length + 2) =
      some '\n' := by
    rw [show ('/' :: '/' :: a ++ '\n' :: ' ' :: '/' :: '/' :: b ++ ['\n']) =
        ('/' :: '/' :: a) ++ ('\n' :: ' ' :: '/' :: '/' :: b ++ ['\n']) by simp]
    rw [List.get?_append_right (by simp)]
    simp
  have habs0 : absorbLine ('/' :: '/' :: a ++ '\n' :: ' ' :: '/' :: '/' :: b ++ ['\n']) 0 0
      = false := by simp [absorbLine]
  have habs1 : absorbLine ('/' :: '/' :: a ++ '\n' :: ' ' :: '/' :: '/' :: b ++ ['\n'])
      (2 + a.length) (2 + a.length + 2) = true := by
    unfold absorbLine
    rw [sliceStartsWs_of_get _ _ '\n' (by rw [show 2 + a.length = a.length + 2 by omega]; exact hget)
      (by decide)]
    simp
  unfold parseMaybeComments
  simp only [List.cons_append, List.append_assoc] at habs0 habs1 ⊢
  rw [List.drop_zero, scanLoop_none_line_start,
    scanLoop_single_through _ a _ _ _ _ ha,
    scanLoop_single_close_cons _ _ _ _ _ _ _ (by decide),
    habs0]
  simp only [Bool.false_eq_true, if_false]
  rw [scanLoop_none_line_start,
    scanLoop_single_through _ b _ _ _ _ hb,
    scanLoop_single_close_nil _ _ _ _ _ (by decide),
    habs1]
  simp only [if_true, List.cons.injEq, Span.mk.injEq, and_true, true_and, List.length_cons]
  omega

/-- Two immediately adjacent line comments: the loop-increment skip eats
the first `/` of the second comment, so only the first span is emitted. -/
theorem parseMaybeComments_adjacent_missed (a : List Char) (b0 : Char) (bs : List Char)
    (ha : ∀ c ∈ a, c ≠ '\n' ∧ c ≠ '\r')
    (h0 : isJsWs b0 = false) (h1 : (b0 == '/') = false) (h2 : (b0 == '*') = false) :
    parseMaybeComments ('/' :: '/' :: a ++ '\n' :: '/' :: '/' :: b0 :: bs) 0 =
      [⟨0, a.length + 3⟩] := by
  have habs0 : absorbLine ('/' :: '/' :: a ++ '\n' :: '/' :: '/' :: b0 :: bs) 0 0
      = false := by simp [absorbLine]
  unfold parseMaybeComments
  simp only [List.cons_append, List.append_assoc] at habs0 ⊢
  rw [List.drop_zero, scanLoop_none_line_start,
    scanLoop_single_through _ a _ _ _ _ ha,
    scanLoop_single_close_cons _ _ _ _ _ _ _ (by decide),
    habs0]
  simp only [Bool.false_eq_true, if_false]
  rw [scanLoop_none_slash_other _ _ _ _ _ (by simp [h1]) (by simp [h2]),
    scanLoop_none_break _ _ _ _ _ _ h1 h0]
  simp only [List.cons.injEq, Span.mk.injEq, and_true, true_and, List.length_cons]
  omega

/-- A terminated line comment followed (after a space) by an unterminated
block comment: only the terminated comment's span is returned. -/
theorem parseMaybeComments_term_then_unterminated (a body : List Char)
    (ha : ∀ c ∈ a, c ≠ '\n' ∧ c ≠ '\r') (hbody : hasBlockEnd body = false) :
    parseMaybeComments ('/' :: '/' :: a ++ '\n' :: ' ' :: '/' :: '*' :: body) 0 =
      [⟨0, a.length + 3⟩] := by
  have habs0 : absorbLine ('/' :: '/' :: a ++ '\n' :: ' ' :: '/' :: '*' :: body) 0 0
      = false := by simp [absorbLine]
  unfold parseMaybeComments
  simp only [List.cons_append, List.append_assoc] at habs0 ⊢
  rw [List.drop_zero, scanLoop_none_line_start,
    scanLoop_single_through _ a _ _ _ _ ha,
    scanLoop_single_close_cons _ _ _ _ _ _ _ (by decide),
    habs0]
  simp only [Bool.false_eq_true, if_false]
  rw [scanLoop_none_block_start, scanLoop_multi_unterminated _ _ _ _ _ hbody]
  simp only [List.cons.injEq, Span.mk.injEq, and_true, true_and, List.length_cons]
  omega

/-! ### Claim C2 -/

/-- Claim C2 as stated is false: after pushing a line-comment span the loop
does not resume at the span's end.  `i` is set to `end` and the loop
increment then moves to `end + 1`, so the character at `end` is skipped.
For `//a\n//b\n` the skipped character is the first `/` of the second
comment, which is therefore never recognised: the result has one span, not
one span per comment. -/
theorem c2_counterexample :
    parseMaybeComments "//a\n//b\n".data 0 = [⟨0, 4⟩] ∧
    (parseMaybeComments "//a\n//b\n".data 0).length ≠ 2 := by
  constructor
  · decide
  · decide

/-- Claim C2 (amended): after emitting a line-comment span whose end is
just past the newline, scanning resumes in state `NONE` at `end + 1` — one
character past the span — because the loop increment follows `i = end`.
Consequently two line comments separated by at least one whitespace
character both receive spans (first conjunct, one-space separator; note
the second span even absorbs the separator, starting at the first span's
end), while a second comment placed immediately at the previous span's end
loses its first `/` to the skip and gets no span (second conjunct). -/
theorem c2_resume_skips_one_char :
    (∀ (a b : List Char), (∀ c ∈ a, c ≠ '\n' ∧ c ≠ '\r') →
      (∀ c ∈ b, c ≠ '\n' ∧ c ≠ '\r') →
      parseMaybeComments ('/' :: '/' :: a ++ '\n' :: ' ' :: '/' :: '/' :: b ++ ['\n']) 0 =
        [⟨0, a.length + 3⟩, ⟨a.length + 3, a.length + b.length + 7⟩]) ∧
    (∀ (a : List Char) (b0 : Char) (bs : List Char),
      (∀ c ∈ a, c ≠ '\n' ∧ c ≠ '\r') → isJsWs b0 = false → (b0 == '/') = false →
      (b0 == '*') = false →
      parseMaybeComments ('/' :: '/' :: a ++ '\n' :: '/' :: '/' :: b0 :: bs) 0 =
        [⟨0, a.length + 3⟩]) :=
  ⟨fun a b ha hb => parseMaybeComments_sep_space a b ha hb,
   fun a b0 bs ha h0 h1 h2 => parseMaybeComments_adjacent_missed a b0 bs ha h0 h1 h2⟩

/-- Concrete instantiation of the amended claim C2 at `//a\n //b\n` and
`//a\n//b`. -/
theorem c2_resume_skips_one_char_witness :
    parseMaybeComments ('/' :: '/' :: ['a'] ++ '\n' :: ' ' :: '/' :: '/' :: ['b'] ++ ['\n']) 0 =
      [⟨0, 4⟩, ⟨4, 9⟩] ∧
    parseMaybeComments ('/' :: '/' :: ['a'] ++ '\n' :: '/' :: '/' :: 'b' :: []) 0 =
      [⟨0, 4⟩] :=
  ⟨c2_resume_skips_one_char.1 ['a'] ['b'] (by decide) (by decide),
   c2_resume_skips_one_char.2 ['a'] 'b' [] (by decide) (by decide) (by decide) (by decide)⟩

/-! ### Claim C8 -/

/-- Claim C8: reaching the end of the input while still inside a line or
block comment emits no span for that final comment and raises no error
(the scanner is a total function); the returned list holds exactly the
spans of the comments terminated before the end of input.  First conjunct:
an unterminated line comment alone yields nothing.  Second: an
unterminated block comment alone yields nothing.  Third: a terminated line
comment followed by an unterminated block comment yields exactly the
terminated comment's span. -/
theorem c8_unterminated_comment_drops_span :
    (∀ body : List Char, (∀ c ∈ body, c ≠ '\n' ∧ c ≠ '\r') →
        parseMaybeComments ('/' :: '/' :: body) 0 = []) ∧
    (∀ body : List Char, hasBlockEnd body = false →
        parseMaybeComments ('/' :: '*' :: body) 0 = []) ∧
    (∀ a body : List Char, (∀ c ∈ a, c ≠ '\n' ∧ c ≠ '\r') → hasBlockEnd body = false →
        parseMaybeComments ('/' :: '/' :: a ++ '\n' :: ' ' :: '/' :: '*' :: body) 0 =
          [⟨0, a.length + 3⟩]) := by
  refine ⟨?_, ?_, fun a body ha hb => parseMaybeComments_term_then_unterminated a body ha hb⟩
  · intro body h
    unfold parseMaybeComments
    rw [List.drop_zero, scanLoop_none_line_start]
    exact scanLoop_single_unterminated _ _ _ _ _ h
  · intro body h
    unfold parseMaybeComments
    rw [List.drop_zero, scanLoop_none_block_start]
    exact scanLoop_multi_unterminated _ _ _ _ _ h

/-- Concrete instantiation of claim C8 at `//abc`, `/*abc` and
`//a\n /*b`. -/
theorem c8_unterminated_comment_drops_span_witness :
    parseMaybeComments ('/' :: '/' :: "abc".data) 0 = [] ∧
    parseMaybeComments ('/' :: '*' :: "abc".data) 0 = [] ∧
    parseMaybeComments ('/' :: '/' :: ['a'] ++ '\n' :: ' ' :: '/' :: '*' :: ['b']) 0 =
      [⟨0, 4⟩] :=
  ⟨c8_unterminated_comment_drops_span.1 "abc".data (by decide),
   c8_unterminated_comment_drops_span.2.1 "abc".data (by decide),
   c8_unterminated_comment_drops_span.2.2 ['a'] ['b'] (by decide) (by decide)⟩

/-! ### Claim C10 -/

/-- The well-formedness property asserted by claim C10: spans within
`[start, code.length]`, non-empty, listed in strictly increasing start
order, and pairwise non-overlapping. -/
def spansWellFormed (code : List Char) (start : Nat) (spans : List Span) : Prop :=
  (∀ sp ∈ spans, start ≤ sp.start ∧ sp.start < sp.stop ∧ sp.stop ≤ code.length) ∧
  List.Pairwise (fun a b => a.start < b.start) spans ∧
  List.Pairwise (fun a b => a.stop ≤ b.start) spans

/-- Claim C10 as stated is false: on `"  /*a*/ //b\n"` the block-comment
span is `⟨2, 7⟩` but the later line-comment span is `⟨1, 12⟩` — its
absorption reused the stale `lineStart` (still the initial scan start), so
the second span starts before the first and overlaps it entirely. -/
theorem c10_counterexample :
    parseMaybeComments "  /*a*/ //b\n".data 0 = [⟨2, 7⟩, ⟨1, 12⟩] ∧
    ¬ spansWellFormed "  /*a*/ //b\n".data 0 (parseMaybeComments "  /*a*/ //b\n".data 0) := by
  constructor
  · decide
  · intro h
    have := h.2.1
    rw [show parseMaybeComments "  /*a*/ //b\n".data 0 = [⟨2, 7⟩, ⟨1, 12⟩] from by decide] at this
    simp at this

/-- Claim C10 (amended): every span of `parseMaybeComments code start`
satisfies `start ≤ span.start < span.stop ≤ code.length`, and the span end
offsets are strictly increasing; the span starts however need not
increase, and spans may overlap (see the counterexample). -/
theorem c10_span_list_shape (code : List Char) (start : Nat) :
    (∀ sp ∈ parseMaybeComments code start,
        start ≤ sp.start ∧ sp.start < sp.stop ∧ sp.stop ≤ code.length) ∧
    List.Pairwise (· < ·) ((parseMaybeComments code start).map Span.stop) := by
  constructor
  · intro sp hsp
    have := scanLoop_span_bounds code start (code.drop start).length (code.drop start)
      start 0 start .NONE le_rfl rfl le_rfl le_rfl
      (by intro h; exact absurd rfl h) sp hsp
    exact ⟨this.1, this.2.1, this.2.2.1⟩
  · exact scanLoop_stops_sorted code start (code.drop start).length (code.drop start)
      start 0 start .NONE le_rfl rfl le_rfl le_rfl
      (by intro h; exact absurd rfl h)

/-- Concrete instantiation of the amended claim C10 at the counterexample
input: the bounds hold for the out-of-order span. -/
theorem c10_span_list_shape_witness :
    (0 ≤ (⟨1, 12⟩ : Span).start ∧ (⟨1, 12⟩ : Span).start < (⟨1, 12⟩ : Span).stop ∧
      (⟨1, 12⟩ : Span).stop ≤ "  /*a*/ //b\n".data.length) ∧
    List.Pairwise (· < ·)
      ((parseMaybeComments "  /*a*/ //b\n".data 0).map Span.stop) :=
  ⟨(c10_span_list_shape "  /*a*/ //b\n".data 0).1 ⟨1, 12⟩ (by decide),
   (c10_span_list_shape "  /*a*/ //b\n".data 0).2⟩

/-! ### Configuration

Translation of the options handling of `transformJsxToHtmLite`.  JavaScript
strings are `List Char`; `options.tag || 'html'` and `options.import ||
false` make the empty string falsy. -/

/-- The `type` field of a comment node supplied by the external parser. -/
inductive CommentType
  | Line
  | Block
deriving DecidableEq, Repr

/-- A comment node from the parser's `ast.comments` list. -/
structure JComment where
  type : CommentType
  start : Nat
  stop : Nat
deriving DecidableEq, Repr

/-- The `options.import` value: `false`/absent, a module-name string, or an
object `{module?, export?}`. -/
inductive ImportOpt
  | noImport
  | str (s : List Char)
  | obj (module : Option (List Char)) (exp : Option (List Char))
deriving DecidableEq, Repr

/-- The recognized options of the transform. -/
structure Options where
  tag : Option (List Char) := none
  terse : Bool := false
  imp : ImportOpt := .noImport

/-- `const tagString = options.tag || 'html'`. -/
def tagString (o : Options) : List Char :=
  match o.tag with
  | some s => if s = [] then "html".data else s
  | none => "html".data

/-- Truthiness of `options.import || false`: objects are truthy, strings
are truthy unless empty. -/
def importTruthy : ImportOpt → Bool
  | .noImport => false
  | .str s => !(s == [])
  | .obj _ _ => true

/-- `typeof tagImport === 'string' ? tagImport : tagImport.module`, as it
is spliced into the template literal: an absent `module` field reads
`undefined`, which the template coerces to the string `undefined`. -/
def importModule (o : Options) : List Char :=
  match o.imp with
  | .str s => s
  | .obj (some m) _ => m
  | .obj none _ => "undefined".data
  | .noImport => []

/-- `(typeof tagImport === 'object' && tagImport.export) || tagString`
(an absent or empty `export` is falsy). -/
def importLocal (o : Options) : List Char :=
  match o.imp with
  | .obj _ (some e) => if e = [] then tagString o else e
  | _ => tagString o

/-- The inserted import statement:
`import { ${imp} } from '${lib}';\n` where `imp` gains
`' as ' + tagString` when `tagString !== imp`. -/
def importStmt (o : Options) : List Char :=
  "import \x7b ".data ++
    (if tagString o ≠ importLocal o then importLocal o ++ " as ".data ++ tagString o
     else importLocal o) ++
    " \x7d from '".data ++ importModule o ++ "';\n".data

/-! ### The syntax tree -/

/-- JSX tag names: a `JSXIdentifier` with its `name` string, or a
`JSXMemberExpression` with `object` and `property`.  In the AST produced
by the external parser a member expression has no `name` field, so the
JavaScript read `path.node.name.name` yields `undefined` on it. -/
inductive JSXName
  | ident (name : List Char)
  | member (obj prop : List Char)
deriving DecidableEq, Repr

/-- JavaScript string coercion of `path.node.name.name`: the identifier's
name, or the text `undefined` for a member expression. -/
def nameNameCoerced : JSXName → List Char
  | .ident s => s
  | .member _ _ => "undefined".data

/-- `isIdent` of the source: a `JSXIdentifier` matching `/(^[A-Z]|[.$])/`
(starts with an ASCII capital, or contains `.` or `$`), or any
`JSXMemberExpression`. -/
def isIdent : JSXName → Bool
  | .ident s =>
    (match s.head? with
     | some c => c.isUpper
     | none => false) || s.any (fun c => c == '.' || c == '$')
  | .member _ _ => true

/-- A closing tag (`JSXClosingElement`) with its offsets and name. -/
structure JClose where
  start : Nat
  stop : Nat
  name : JSXName
deriving DecidableEq, Repr

mutual
/-- JSX syntax trees with byte offsets, as visited by the rewrite engine.
`elem` is a `JSXElement` flattened together with its opening tag (`start`
and `stop` are the opening element's range; `closing = none` means
self-closing); `frag` is a `JSXFragment` with the ranges of its opening
and closing markers; `text` is `JSXText` with its `value`; `exprEmpty` is
a `JSXExpressionContainer` holding a `JSXEmptyExpression`; `expr` is any
other `JSXExpressionContainer`, whose expression may contain further JSX
trees (`inner`), each of which is a root again (its parent is not a JSX
element or fragment). -/
inductive JTree
  | elem (start stop nameStart nameEnd : Nat) (name : JSXName)
      (attrs : List JAttr) (children : List JTree) (closing : Option JClose)
  | frag (start stop openStart openStop closeStart closeStop : Nat)
      (children : List JTree)
  | text (start stop : Nat) (value : List Char)
  | exprEmpty (start stop : Nat)
  | expr (start stop : Nat) (inner : List JTree)

/-- Attributes of an opening tag: a plain `JSXAttribute` whose value may
contain a JSX tree (an expression container, or even a nested element),
or a `JSXSpreadAttribute` carrying the source text of its argument. -/
inductive JAttr
  | plain (start stop : Nat) (value : Option JTree)
  | spread (start stop : Nat) (argText : List Char)
end

/-- Byte range of an attribute (`attr.start`/`attr.end`). -/
def attrRange : JAttr → Nat × Nat
  | .plain s e _ => (s, e)
  | .spread s e _ => (s, e)

/-- Start offset of a tree node. -/
def treeStart : JTree → Nat
  | .elem s _ _ _ _ _ _ _ => s
  | .frag s _ _ _ _ _ _ => s
  | .text s _ _ => s
  | .exprEmpty s _ => s
  | .expr s _ _ => s

/-- Stop offset of a tree node.  For an element this is the full
`JSXElement` range end: the closing tag's end when present, the opening
tag's end when self-closing. -/
def treeStop : JTree → Nat
  | .elem _ e _ _ _ _ _ closing =>
    (match closing with
     | some c => c.stop
     | none => e)
  | .frag _ e _ _ _ _ _ => e
  | .text _ e _ => e
  | .exprEmpty _ e => e
  | .expr _ e _ => e

/-! ### The per-node rewrite rules -/

/-- Edit operations issued against the splice buffer.  Modelled from the
spec: the external non-destructive splice buffer accepts insertions before
or after an offset, removals and overwrites of a range of the original
text, and whole-node replacements; `path.replaceWith(node)` followed by
`prependString`/`appendString` is rendered as a `replaceWithString`
carrying the replacement text. -/
inductive Edit
  | prependString (off : Nat) (s : List Char)
  | appendString (off : Nat) (s : List Char)
  | remove (start stop : Nat)
  | overwrite (start stop : Nat) (s : List Char)
  | replaceWithString (start stop : Nat) (s : List Char)
deriving DecidableEq, Repr

/-- The comment-removal scans of the opening-element rule: starting from
the end of the tag name, scan before each attribute, setting `i` to the
attribute's end after each step, then scan once more after the last
attribute. -/
def openingRemovalSpans (code : List Char) (nameEnd : Nat) (attrEnds : List Nat) : List Span :=
  let st := attrEnds.foldl
    (fun st aEnd => (st.1 ++ parseMaybeComments code st.2, aEnd))
    (([] : List Span), nameEnd)
  st.1 ++ parseMaybeComments code st.2

/-- `commentToHtml(path, comment)` with the default bounds (`ifStart = 0`,
`ifEnd = Infinity`, so the guard is always satisfied): overwrite the
opening two-character marker with `<!--`; for a block comment overwrite
the final `*/` with `-->`, for a line comment append `-->` after its
end. -/
def commentToHtmlEdits (c : JComment) : List Edit :=
  Edit.overwrite c.start (c.start + 2) "<!--".data ::
    (match c.type with
     | .Block => [Edit.overwrite (c.stop - 2) c.stop "-->".data]
     | .Line => [Edit.appendString c.stop "-->".data])

/-- The `JSXOpeningElement` visitor: wrap a component name in `${`…`}`,
remove the comments found between attributes, add the template delimiters
when the element is the root JSX node (opening delimiter before the tag,
and the closing backtick after it when self-closing), and convert the
parser-reported comments inside the opening tag (those not inside an
attribute) to HTML comments. -/
def jsxOpeningElementEdits (cfg : Options) (code : List Char) (cms : List JComment)
    (root : Bool) (start stop nameStart nameEnd : Nat) (name : JSXName)
    (attrRanges : List (Nat × Nat)) (selfClosing : Bool) : List Edit :=
  (if isIdent name then
    [Edit.prependString nameStart "$\x7b".data, Edit.appendString nameEnd "\x7d".data]
   else []) ++
  (if attrRanges ≠ [] then
    (openingRemovalSpans code nameEnd (attrRanges.map Prod.snd)).map
      (fun sp => Edit.remove sp.start sp.stop)
   else []) ++
  (if root then
    Edit.prependString start (tagString cfg ++ "`".data) ::
      (if selfClosing then [Edit.appendString stop "`".data] else [])
   else []) ++
  (if cms ≠ [] then
    cms.flatMap (fun c =>
      if nameEnd ≤ c.start ∧ c.stop < stop then
        if attrRanges.any (fun a => a.1 ≤ c.start ∧ c.stop ≤ a.2) then []
        else commentToHtmlEdits c
      else [])
   else [])

/-- The `JSXClosingElement` visitor: `</${Name}>` (or `<//>` in terse
mode) for component tags, `</name>` otherwise, with a closing backtick
appended when the element is the root JSX node. -/
def jsxClosingElementEdits (cfg : Options) (root : Bool) (c : JClose) : List Edit :=
  let name0 := nameNameCoerced c.name
  let name := if isIdent c.name then
      (if cfg.terse then "/".data else "$\x7b".data ++ name0 ++ "\x7d".data)
    else name0
  let str := "</".data ++ name ++ ">".data ++ (if root then "`".data else [])
  [Edit.replaceWithString c.start c.stop str]

/-- The `JSXOpeningFragment` visitor: removed when nested, replaced by
the tag function name and an opening backtick at the root. -/
def jsxOpeningFragmentEdits (cfg : Options) (root : Bool) (openStart openStop : Nat) :
    List Edit :=
  if root then [Edit.replaceWithString openStart openStop (tagString cfg ++ "`".data)]
  else [Edit.remove openStart openStop]

/-- The `JSXClosingFragment` visitor: removed when nested, replaced by a
single closing backtick at the root. -/
def jsxClosingFragmentEdits (root : Bool) (closeStart closeStop : Nat) : List Edit :=
  if root then [Edit.replaceWithString closeStart closeStop "`".data]
  else [Edit.remove closeStart closeStop]

/-- The `JSXText` visitor: wrap as `${`…`}` iff the text matches
`/[<>&"]/`, otherwise replace with the raw text. -/
def jsxTextEdits (start stop : Nat) (value : List Char) : List Edit :=
  if value.any (fun c => c == '<' || c == '>' || c == '&' || c == '"') then
    [Edit.replaceWithString start stop ("$\x7b`".data ++ value ++ "`\x7d".data)]
  else [Edit.replaceWithString start stop value]

/-- The `JSXSpreadAttribute` visitor: replace the spread with its argument
and wrap as `...${`…`}`. -/
def jsxSpreadAttributeEdits (start stop : Nat) (argText : List Char) : List Edit :=
  [Edit.replaceWithString start stop argText,
   Edit.prependString start "...$\x7b".data,
   Edit.appendString stop "\x7d".data]

/-- The `JSXExpressionContainer` visitor: remove empty expressions, prefix
`$` otherwise. -/
def jsxExpressionContainerEdits (start stop : Nat) (empty : Bool) : List Edit :=
  if empty then [Edit.remove start stop] else [Edit.prependString start "$".data]

/-! ### The traversal -/

mutual
/-- Depth-first traversal emitting the visitor edits in visit order.
`inJSX` records whether the node's traversal parent is itself a JSX
element or fragment, so `isRootElement path` — which inspects
`path.parentPath.parent`, the node containing the element whose
opening/closing tag is being visited — is `!inJSX`.  Children of elements
and fragments are visited with `inJSX = true`; trees inside expression
containers or attribute values are visited with `inJSX = false` because
their parent is the container, the logical expression inside it, or the
attribute — never a JSX element or fragment directly. -/
def visitTree (cfg : Options) (code : List Char) (cms : List JComment)
    (inJSX : Bool) : JTree → List Edit
  | .elem start stop nameStart nameEnd name attrs children closing =>
    jsxOpeningElementEdits cfg code cms (!inJSX) start stop nameStart nameEnd name
      (attrs.map attrRange) closing.isNone ++
    visitAttrs cfg code cms attrs ++
    visitTrees cfg code cms true children ++
    Option.elim closing [] (fun c => jsxClosingElementEdits cfg (!inJSX) c)
  | .frag _ _ openStart openStop closeStart closeStop children =>
    jsxOpeningFragmentEdits cfg (!inJSX) openStart openStop ++
    visitTrees cfg code cms true children ++
    jsxClosingFragmentEdits (!inJSX) closeStart closeStop
  | .text start stop value => jsxTextEdits start stop value
  | .exprEmpty start stop => jsxExpressionContainerEdits start stop true
  | .expr start stop inner =>
    jsxExpressionContainerEdits start stop false ++
    visitTrees cfg code cms false inner

/-- Traversal of a list of sibling trees. -/
def visitTrees (cfg : Options) (code : List Char) (cms : List JComment)
    (inJSX : Bool) : List JTree → List Edit
  | [] => []
  | t :: ts => visitTree cfg code cms inJSX t ++ visitTrees cfg code cms inJSX ts

/-- Traversal of one attribute: spread attributes are rewritten, plain
attributes contribute only the traversal of their value. -/
def visitAttr (cfg : Options) (code : List Char) (cms : List JComment) : JAttr → List Edit
  | .plain _ _ none => []
  | .plain _ _ (some v) => visitTree cfg code cms false v
  | .spread start stop argText => jsxSpreadAttributeEdits start stop argText

/-- Traversal of the attribute list. -/
def visitAttrs (cfg : Options) (code : List Char) (cms : List JComment) :
    List JAttr → List Edit
  | [] => []
  | a :: rest => visitAttr cfg code cms a ++ visitAttrs cfg code cms rest
end

mutual
/-- The `state.jsx` flag: it is set (only) in the `JSXOpeningElement`
visitor, so after the traversal it is true iff some opening element was
visited.  Fragment openings do not set it. -/
def jsxFlagTree : JTree → Bool
  | .elem _ _ _ _ _ _ _ _ => true
  | .frag _ _ _ _ _ _ children => jsxFlagTrees children
  | .text _ _ _ => false
  | .exprEmpty _ _ => false
  | .expr _ _ inner => jsxFlagTrees inner

/-- The flag over a list of sibling trees. -/
def jsxFlagTrees : List JTree → Bool
  | [] => false
  | t :: ts => jsxFlagTree t || jsxFlagTrees ts
end

/-- A whole file: the offset of the top of the body (where the import is
prepended), the JSX trees scattered through it, and the parser's comment
list. -/
structure JProgram where
  bodyStart : Nat
  trees : List JTree
  comments : List JComment

/-- `Program.exit`: if any JSX was found and the import option is truthy,
prepend one import statement to the top of the file body. -/
def programExitEdits (cfg : Options) (jsx : Bool) (bodyStart : Nat) : List Edit :=
  if jsx && importTruthy cfg.imp then
    [Edit.prependString bodyStart (importStmt cfg)]
  else []

/-- The whole transform: traverse every JSX tree (each is a root), then
run the `Program.exit` rule with the accumulated `state.jsx` flag. -/
def visitProgram (cfg : Options) (code : List Char) (p : JProgram) : List Edit :=
  visitTrees cfg code p.comments false p.trees ++
  programExitEdits cfg (jsxFlagTrees p.trees) p.bodyStart

/-! ### Claim C5 -/

/-- Claim C5: a JSX text node is replaced by the template substitution
`${` + backtick-quoted text + `}` if and only if its text contains one of
`<`, `>`, `&`, `"`; text without those characters is replaced by itself,
unchanged. -/
theorem c5_text_escaping (start stop : Nat) (value : List Char) :
    (jsxTextEdits start stop value =
        [Edit.replaceWithString start stop ("$\x7b`".data ++ value ++ "`\x7d".data)] ↔
      value.any (fun c => c == '<' || c == '>' || c == '&' || c == '"') = true) ∧
    (value.any (fun c => c == '<' || c == '>' || c == '&' || c == '"') = false →
      jsxTextEdits start stop value = [Edit.replaceWithString start stop value]) := by
  constructor
  · constructor
    · intro h
      rcases Bool.eq_false_or_eq_true
        (value.any (fun c => c == '<' || c == '>' || c == '&' || c == '"')) with hv | hv
      · exact hv
      · exfalso
        rw [jsxTextEdits, if_neg (by simp [hv])] at h
        simp only [List.cons.injEq, Edit.replaceWithString.injEq, and_true, true_and] at h
        have hlen := congrArg List.length h
        simp [List.length_append] at hlen
        omega
    · intro hv
      rw [jsxTextEdits, if_pos hv]
  · intro hv
    rw [jsxTextEdits, if_neg (by simp [hv])]

/-- Concrete instantiation of claim C5: `a<b` is wrapped, `ab` is not. -/
theorem c5_text_escaping_witness :
    jsxTextEdits 0 3 "a<b".data =
      [Edit.replaceWithString 0 3 ("$\x7b`".data ++ "a<b".data ++ "`\x7d".data)] ∧
    jsxTextEdits 0 2 "ab".data = [Edit.replaceWithString 0 2 "ab".data] :=
  ⟨(c5_text_escaping 0 3 "a<b".data).1.mpr (by decide),
   (c5_text_escaping 0 2 "ab".data).2 (by decide)⟩

/-! ### Claim C6 -/

/-- Claim C6 fails on the code for member-expression tags: in the AST of
the external parser a `JSXMemberExpression` has `object` and `property`
fields but no `name`, so `let name = path.node.name.name` reads
`undefined`, and in non-terse mode the template `'${' + name + '}'`
coerces it to the text `undefined`.  The closing tag `</Ctx.Provider>`
(offsets 0–15) is replaced by `</${undefined}>` instead of
`</${Ctx.Provider}>`.  The other parts of the claim behave as stated:
terse mode yields `<//>`, and the root backtick is appended exactly at the
root (second and third conjuncts). -/
theorem c6_member_closing_undefined :
    jsxClosingElementEdits {} false ⟨0, 15, .member "Ctx".data "Provider".data⟩ =
      [Edit.replaceWithString 0 15 "</$\x7bundefined\x7d>".data] ∧
    jsxClosingElementEdits { terse := true } true ⟨0, 15, .member "Ctx".data "Provider".data⟩ =
      [Edit.replaceWithString 0 15 "<//>`".data] ∧
    jsxClosingElementEdits {} true ⟨0, 4, .ident "div".data⟩ =
      [Edit.replaceWithString 0 4 "</div>`".data] := by
  refine ⟨by decide, by decide, by decide⟩

/-! ### Claim C7 -/

/-- Claim C7 fails on the code: there is no configuration validation at
all.  With `options.import = {}` (no `module` field) the transform runs
the whole traversal without error and silently emits
`import { html } from 'undefined';` — the absent module name is coerced
into the import statement at `Program.exit` instead of failing fast. -/
theorem c7_no_config_validation :
    programExitEdits { imp := ImportOpt.obj none none } true 0 =
      [Edit.prependString 0 "import \x7b html \x7d from 'undefined';\n".data] ∧
    visitProgram { imp := ImportOpt.obj none none } "<a/>".data
        ⟨0, [.elem 0 4 1 2 (.ident "a".data) [] [] none], []⟩ =
      [Edit.prependString 0 ("html`".data), Edit.appendString 4 ("`".data),
       Edit.prependString 0 "import \x7b html \x7d from 'undefined';\n".data] := by
  refine ⟨by decide, by decide⟩

/-! ### Claim C3 -/

/-- Claim C3: a line comment on its own indented line between attributes
is removed together with its leading indentation and trailing newline.
First conjunct, in general: scanning from the newline that precedes the
indented comment line, the first reported span starts just after that
newline (absorbing the indentation) and ends just past the comment's own
newline — so removing the span removes the whole comment line and leaves
no blank line.  Second conjunct: on Scenario 4's source
`<div\n  // comment\n  id="foo"\n/>` the opening-element rule emits the
removal of exactly `⟨5, 18⟩`, the full comment line between the tag name
and the `id` attribute. -/
theorem c3_comment_absorption :
    (∀ (ind body rest : List Char),
      (∀ c ∈ ind, isJsWs c = true ∧ c ≠ '\n') →
      (∀ c ∈ body, c ≠ '\n' ∧ c ≠ '\r') →
      (parseMaybeComments ('\n' :: ind ++ '/' :: '/' :: body ++ '\n' :: rest) 0).head? =
        some ⟨1, ind.length + body.length + 4⟩) ∧
    Edit.remove 5 18 ∈ jsxOpeningElementEdits {}
      "<div\n  // comment\n  id=\"foo\"\n/>".data
      [⟨.Line, 7, 17⟩] true 0 31 1 4 (.ident "div".data) [(20, 28)] true := by
  constructor
  · intro ind body rest hind hbody
    have habs : absorbLine ('\n' :: (ind ++ '/' :: '/' :: (body ++ '\n' :: rest)))
        0 (1 + ind.length) = true := by
      unfold absorbLine
      rw [sliceStartsWs_of_get ('\n' :: (ind ++ '/' :: '/' :: (body ++ '\n' :: rest))) 0 '\n'
        rfl (by decide)]
      simp
    unfold parseMaybeComments
    simp only [List.cons_append, List.append_assoc] at habs ⊢
    rw [List.drop_zero, scanLoop_none_newline,
      scanLoop_none_ws_run _ ind _ _ _ _ hind,
      scanLoop_none_line_start,
      scanLoop_single_through _ body _ _ _ _ hbody]
    cases rest with
    | nil =>
      rw [scanLoop_single_close_nil _ _ _ _ _ (by decide), habs]
      simp only [if_true, List.head?_cons, Option.some.injEq, Span.mk.injEq]
      simp
      all_goals omega
    | cons r0 rest2 =>
      rw [scanLoop_single_close_cons _ _ _ _ _ _ _ (by decide), habs]
      simp only [if_true, List.head?_cons, Option.some.injEq, Span.mk.injEq]
      simp
      all_goals omega
  · decide

/-- Concrete instantiation of claim C3's general conjunct at Scenario 4's
comment line (`\n  // comment\n` followed by the rest of the tag). -/
theorem c3_comment_absorption_witness :
    (parseMaybeComments ('\n' :: [' ', ' '] ++ '/' :: '/' :: " comment".data ++
        '\n' :: "  id=\"foo\"\n/>".data) 0).head? = some ⟨1, 14⟩ :=
  c3_comment_absorption.1 [' ', ' '] " comment".data "  id=\"foo\"\n/>".data
    (by decide) (by decide)

/-! ### Claim C4 -/

/-- Identifier-shaped tag names: nonempty and made of letters, digits,
`_`, `$`.  The default `html` and any usable tag-function name satisfy
this; it separates the import statement from every other inserted
string. -/
def TagIdentLike (tagc : List Char) : Prop :=
  tagc ≠ [] ∧ ∀ c ∈ tagc, c.isAlpha ∨ c.isDigit ∨ c = '_' ∨ c = '$'

/-- Deciding `TagIdentLike` so that witnesses can discharge it on
concrete tag names. -/
instance (tagc : List Char) : Decidable (TagIdentLike tagc) := by
  unfold TagIdentLike
  infer_instance

/-- The import edit among the emitted edits: a `prependString` whose text
starts with `import { `. -/
def isImportEdit : Edit → Bool
  | .prependString _ s => "import \x7b ".data.isPrefixOf s
  | _ => false

/-- The import edits among a list of edits. -/
def importEdits (es : List Edit) : List Edit := es.filter isImportEdit

/-- The root opening delimiter `tag` + backtick never looks like an import
statement: the inserted import text has a space at index 6, but an
identifier-like tag (which the length forces to reach past that index)
has none. -/
theorem import_not_prefix_of_tag (tagc : List Char) (ht : TagIdentLike tagc) :
    ("import \x7b ".data.isPrefixOf (tagc ++ "`".data)) = false := by
  rw [Bool.eq_false_iff]
  intro hpre
  rw [List.isPrefixOf_iff_prefix] at hpre
  obtain ⟨t, ht2⟩ := hpre
  have hlen := congrArg List.length ht2
  simp at hlen
  have h6 : (("import \x7b ".data ++ t).get? 6) = some ' ' := by
    rw [List.get?_append (by decide)]
    decide
  rw [ht2] at h6
  have hlt : 6 < tagc.length := by omega
  rw [List.get?_append hlt] at h6
  have hmem := List.get?_mem h6
  have hc := ht.2 ' ' hmem
  exact (by decide :
    ¬(' '.isAlpha = true ∨ ' '.isDigit = true ∨ ' ' = '_' ∨ ' ' = '$')) hc

/-- Removal edits are never import edits. -/
theorem filter_import_removes (l : List Span) :
    List.filter isImportEdit (l.map (fun sp => Edit.remove sp.start sp.stop)) = [] := by
  induction l with
  | nil => rfl
  | cons sp l ih => simp [List.filter_cons, isImportEdit, ih]

/-- Comment-to-HTML edits are never import edits. -/
theorem filter_import_commentToHtml (c : JComment) :
    List.filter isImportEdit (commentToHtmlEdits c) = [] := by
  obtain ⟨ty, cs, ce⟩ := c
  unfold commentToHtmlEdits
  cases ty <;> simp [List.filter_cons, isImportEdit]

/-- The opening-element rule emits no import edit. -/
theorem importEdits_opening (cfg : Options) (code : List Char) (cms : List JComment)
    (root : Bool) (start stop nameStart nameEnd : Nat) (name : JSXName)
    (attrRanges : List (Nat × Nat)) (selfClosing : Bool)
    (ht : TagIdentLike (tagString cfg)) :
    importEdits (jsxOpeningElementEdits cfg code cms root start stop nameStart nameEnd
      name attrRanges selfClosing) = [] := by
  have k1 : ("import \x7b ".data.isPrefixOf "$\x7b".data) = false := by decide
  have k2 := import_not_prefix_of_tag _ ht
  unfold jsxOpeningElementEdits importEdits
  rw [List.filter_append, List.filter_append, List.filter_append]
  have p1 : List.filter isImportEdit
      (if isIdent name then
        [Edit.prependString nameStart "$\x7b".data, Edit.appendString nameEnd "\x7d".data]
       else []) = [] := by
    split
    · simp [List.filter_cons, isImportEdit, k1]
    · rfl
  have p2 : List.filter isImportEdit
      (if attrRanges ≠ [] then
        (openingRemovalSpans code nameEnd (attrRanges.map Prod.snd)).map
          (fun sp => Edit.remove sp.start sp.stop)
       else []) = [] := by
    split
    · exact filter_import_removes _
    · rfl
  have p3 : List.filter isImportEdit
      (if root then
        Edit.prependString start (tagString cfg ++ "`".data) ::
          (if selfClosing then [Edit.appendString stop "`".data] else [])
       else []) = [] := by
    split
    · rw [List.filter_cons]
      simp only [isImportEdit, k2]
      rw [if_neg (by simp)]
      split
      · simp [List.filter_cons, isImportEdit]
      · rfl
    · rfl
  have p4aux : ∀ (l : List JComment), List.filter isImportEdit
      (l.flatMap (fun c =>
        if nameEnd ≤ c.start ∧ c.stop < stop then
          if attrRanges.any (fun a => a.1 ≤ c.start ∧ c.stop ≤ a.2) then []
          else commentToHtmlEdits c
        else [])) = [] := by
    intro l
    induction l with
    | nil => rfl
    | cons c rest ih =>
      rw [List.flatMap_cons, List.filter_append, ih, List.append_nil]
      split
      · split
        · rfl
        · exact filter_import_commentToHtml c
      · rfl
  have p4 : List.filter isImportEdit
      (if cms ≠ [] then
        cms.flatMap (fun c =>
          if nameEnd ≤ c.start ∧ c.stop < stop then
            if attrRanges.any (fun a => a.1 ≤ c.start ∧ c.stop ≤ a.2) then []
            else commentToHtmlEdits c
          else [])
       else []) = [] := by
    split
    · exact p4aux cms
    · rfl
  rw [p1, p2, p3, p4]
  rfl

mutual
/-- The traversal of a tree emits no import edit. -/
theorem importEdits_visitTree (cfg : Options) (code : List Char) (cms : List JComment)
    (ht : TagIdentLike (tagString cfg)) (b : Bool) (t : JTree) :
    importEdits (visitTree cfg code cms b t) = [] := by
  cases t with
  | elem start stop nameStart nameEnd name attrs children closing =>
    rw [visitTree]
    unfold importEdits at *
    rw [List.filter_append, List.filter_append, List.filter_append]
    rw [show (jsxOpeningElementEdits cfg code cms (!b) start stop nameStart nameEnd name
        (attrs.map attrRange) closing.isNone).filter isImportEdit = [] from
      importEdits_opening cfg code cms (!b) start stop nameStart nameEnd name
        (attrs.map attrRange) closing.isNone ht]
    rw [show (visitAttrs cfg code cms attrs).filter isImportEdit = [] from
      importEdits_visitAttrs cfg code cms ht attrs]
    rw [show (visitTrees cfg code cms true children).filter isImportEdit = [] from
      importEdits_visitTrees cfg code cms ht true children]
    simp only [List.nil_append, List.append_nil]
    cases closing with
    | none => rfl
    | some c =>
      simp only [Option.elim, jsxClosingElementEdits]
      simp [List.filter_cons, isImportEdit]
  | frag start stop openStart openStop closeStart closeStop children =>
    rw [visitTree]
    unfold importEdits at *
    rw [List.filter_append, List.filter_append]
    rw [show (visitTrees cfg code cms true children).filter isImportEdit = [] from
      importEdits_visitTrees cfg code cms ht true children]
    unfold jsxOpeningFragmentEdits jsxClosingFragmentEdits
    split <;> simp [List.filter_cons, isImportEdit]
  | text start stop value =>
    rw [visitTree]
    unfold importEdits jsxTextEdits
    split <;> simp [List.filter_cons, isImportEdit]
  | exprEmpty start stop =>
    rw [visitTree]
    simp [importEdits, jsxExpressionContainerEdits, List.filter_cons, isImportEdit]
  | expr start stop inner =>
    rw [visitTree]
    unfold importEdits at *
    rw [List.filter_append]
    rw [show (visitTrees cfg code cms false inner).filter isImportEdit = [] from
      importEdits_visitTrees cfg code cms ht false inner]
    simp [jsxExpressionContainerEdits, List.filter_cons, isImportEdit]

/-- The traversal of a tree list emits no import edit. -/
theorem importEdits_visitTrees (cfg : Options) (code : List Char) (cms : List JComment)
    (ht : TagIdentLike (tagString cfg)) (b : Bool) (ts : List JTree) :
    importEdits (visitTrees cfg code cms b ts) = [] := by
  cases ts with
  | nil => rfl
  | cons t ts =>
    rw [visitTrees]
    unfold importEdits at *
    rw [List.filter_append]
    rw [show (visitTree cfg code cms b t).filter isImportEdit = [] from
      importEdits_visitTree cfg code cms ht b t]
    rw [show (visitTrees cfg code cms b ts).filter isImportEdit = [] from
      importEdits_visitTrees cfg code cms ht b ts]
    rfl

/-- The traversal of one attribute emits no import edit. -/
theorem importEdits_visitAttr (cfg : Options) (code : List Char) (cms : List JComment)
    (ht : TagIdentLike (tagString cfg)) (a : JAttr) :
    importEdits (visitAttr cfg code cms a) = [] := by
  cases a with
  | plain start stop value =>
    cases value with
    | none => rfl
    | some v =>
      rw [visitAttr]
      exact importEdits_visitTree cfg code cms ht false v
  | spread start stop argText =>
    rw [visitAttr]
    have k3 : ("import \x7b ".data.isPrefixOf "...$\x7b".data) = false := by decide
    simp [importEdits, jsxSpreadAttributeEdits, List.filter_cons, isImportEdit, k3]

/-- The traversal of an attribute list emits no import edit. -/
theorem importEdits_visitAttrs (cfg : Options) (code : List Char) (cms : List JComment)
    (ht : TagIdentLike (tagString cfg)) (attrs : List JAttr) :
    importEdits (visitAttrs cfg code cms attrs) = [] := by
  cases attrs with
  | nil => rfl
  | cons a rest =>
    rw [visitAttrs]
    unfold importEdits at *
    rw [List.filter_append]
    rw [show (visitAttr cfg code cms a).filter isImportEdit = [] from
      importEdits_visitAttr cfg code cms ht a]
    rw [show (visitAttrs cfg code cms rest).filter isImportEdit = [] from
      importEdits_visitAttrs cfg code cms ht rest]
    rfl
end

/-- Claim C4 fails as stated: the "contains JSX" flag is set in the
`JSXOpeningElement` visitor only — fragment openings do not set it.  A
file whose only JSX is the fragment `<>hi</>`, with `import` set to
`'preact'`, is still transformed (the fragment becomes a tagged template
that references the tag function) yet receives no import statement,
although the claim — under which a fragment opening sets the flag —
requires exactly one to be prepended. -/
theorem c4_counterexample :
    importEdits (visitProgram { imp := ImportOpt.str "preact".data } "<>hi</>".data
        ⟨0, [.frag 0 7 0 2 4 7 [.text 2 4 "hi".data]], []⟩) = [] ∧
    importTruthy (ImportOpt.str "preact".data) = true ∧
    visitProgram { imp := ImportOpt.str "preact".data } "<>hi</>".data
        ⟨0, [.frag 0 7 0 2 4 7 [.text 2 4 "hi".data]], []⟩ =
      [Edit.replaceWithString 0 2 "html`".data,
       Edit.replaceWithString 2 4 "hi".data,
       Edit.replaceWithString 4 7 "`".data] := by
  refine ⟨by decide, by decide, by decide⟩

/-- Claim C4 (amended): at end of file, exactly one import statement for
the tag-function name is prepended to the top of the file body iff some
opening element was visited — the flag is set only by
`JSXOpeningElement`; fragment openings do not set it — and the `import`
option is truthy.  The statement aliases `export as local` exactly when
the configured export name (defaulted to the tag name when absent or
empty) differs from the configured tag name. -/
theorem c4_import_insertion (cfg : Options) (code : List Char) (p : JProgram)
    (ht : TagIdentLike (tagString cfg)) :
    importEdits (visitProgram cfg code p) =
      (if jsxFlagTrees p.trees && importTruthy cfg.imp then
        [Edit.prependString p.bodyStart
          ("import \x7b ".data ++
            (if importLocal cfg ≠ tagString cfg then
              importLocal cfg ++ " as ".data ++ tagString cfg
             else tagString cfg) ++
            " \x7d from '".data ++ importModule cfg ++ "';\n".data)]
      else []) := by
  unfold visitProgram importEdits
  rw [List.filter_append]
  rw [show (visitTrees cfg code p.comments false p.trees).filter isImportEdit = [] from
    importEdits_visitTrees cfg code p.comments ht false p.trees]
  rw [List.nil_append]
  unfold programExitEdits
  split
  · rw [List.filter_cons]
    rw [show isImportEdit (Edit.prependString p.bodyStart (importStmt cfg)) = true from by
      simp only [isImportEdit, importStmt]
      rw [List.isPrefixOf_iff_prefix]
      rw [List.append_assoc, List.append_assoc, List.append_assoc]
      exact List.prefix_append _ _]
    rw [if_pos rfl, List.filter_nil]
    unfold importStmt
    by_cases h : importLocal cfg = tagString cfg
    · rw [if_neg (show ¬(tagString cfg ≠ importLocal cfg) by simp [h]),
        if_neg (show ¬(importLocal cfg ≠ tagString cfg) by simp [h]), h]
    · rw [if_pos (show tagString cfg ≠ importLocal cfg from fun he => h he.symm),
        if_pos (show importLocal cfg ≠ tagString cfg from h)]
  · rfl

/-- Concrete instantiation of the amended claim C4: one element, import
module `preact`, no export name — one plain import is prepended. -/
theorem c4_import_insertion_witness :
    importEdits (visitProgram { imp := ImportOpt.str "preact".data } "<a/>".data
        ⟨0, [.elem 0 4 1 2 (.ident "a".data) [] [] none], []⟩) =
      (if jsxFlagTrees [JTree.elem 0 4 1 2 (.ident "a".data) [] [] none] &&
          importTruthy (ImportOpt.str "preact".data) then
        [Edit.prependString 0
          ("import \x7b ".data ++
            (if importLocal { imp := ImportOpt.str "preact".data } ≠
                tagString { imp := ImportOpt.str "preact".data } then
              importLocal { imp := ImportOpt.str "preact".data } ++ " as ".data ++
                tagString { imp := ImportOpt.str "preact".data }
             else tagString { imp := ImportOpt.str "preact".data }) ++
            " \x7d from '".data ++ importModule { imp := ImportOpt.str "preact".data } ++
            "';\n".data)]
      else []) :=
  c4_import_insertion { imp := ImportOpt.str "preact".data } "<a/>".data
    ⟨0, [.elem 0 4 1 2 (.ident "a".data) [] [] none], []⟩ (by decide)

/-! ### Claim C1: root delimiting -/

/-- The backtick character, the delimiter of the produced tagged
templates. -/
def bq : Char := '\x60'

/-- A well-behaved configured tag name: non-empty (the source defaults an
absent or empty `options.tag` to `html`) and not starting with `<` (so the
opening delimiter cannot collide with a rendered closing tag). -/
def TagOk (tagc : List Char) : Prop :=
  tagc ≠ [] ∧ tagc.head? ≠ some '<'

/-- Deciding `TagOk` so that witnesses can discharge it on concrete tag
names. -/
instance (tagc : List Char) : Decidable (TagOk tagc) := by
  unfold TagOk
  infer_instance

/-- An opening delimiter among the emitted edits: inserted text that is
exactly the configured tag name followed by a backtick (the
`prependString` of a root opening element, or the `replaceWithString` of a
root opening fragment). -/
def isOpener (tagc : List Char) : Edit → Bool
  | .prependString _ s => decide (s = tagc ++ [bq])
  | .replaceWithString _ _ s => decide (s = tagc ++ [bq])
  | _ => false

/-- A closing delimiter among the emitted edits: a lone appended backtick
(self-closing root elements), or a replacement text ending in a backtick
that is not itself an opening delimiter (root closing tags and root
closing fragments). -/
def isCloser (tagc : List Char) : Edit → Bool
  | .appendString _ s => decide (s = [bq])
  | .replaceWithString _ _ s => decide (s.getLast? = some bq) && !decide (s = tagc ++ [bq])
  | _ => false

/-- The offset an edit is anchored at. -/
def anchor : Edit → Nat
  | .prependString off _ => off
  | .appendString off _ => off
  | .remove s _ => s
  | .overwrite s _ _ => s
  | .replaceWithString s _ _ => s

mutual
/-- No backtick occurs in the raw texts the transform copies through
verbatim: `JSXText` values and spread-attribute argument texts.  (A
backtick in such a text would be reproduced in the output and could be
mistaken for a delimiter.) -/
def noBkT : JTree → Bool
  | .elem _ _ _ _ _ attrs children _ => noBkAs attrs && noBkTs children
  | .frag _ _ _ _ _ _ children => noBkTs children
  | .text _ _ value => decide (bq ∉ value)
  | .exprEmpty _ _ => true
  | .expr _ _ inner => noBkTs inner

/-- `noBkT` over a list of sibling trees. -/
def noBkTs : List JTree → Bool
  | [] => true
  | t :: ts => noBkT t && noBkTs ts

/-- `noBkT` over one attribute. -/
def noBkA : JAttr → Bool
  | .plain _ _ none => true
  | .plain _ _ (some v) => noBkT v
  | .spread _ _ argText => decide (bq ∉ argText)

/-- `noBkT` over an attribute list. -/
def noBkAs : List JAttr → Bool
  | [] => true
  | a :: rest => noBkA a && noBkAs rest
end

mutual
/-- Modelled from the spec: the anchors, in traversal order, at which JSX
nodes receive an opening delimiter.  A node whose traversal parent is a
JSX element or fragment (`b = true`) is nested and receives none; every
root element or fragment receives exactly one, at the start of its opening
tag or opening marker.  Trees inside attribute values and expression
containers are roots again. -/
def openAnchorsT (b : Bool) : JTree → List Nat
  | .elem start _ _ _ _ attrs children _ =>
    (if b then [] else [start]) ++ openAnchorsAs attrs ++ openAnchorsTs true children
  | .frag _ _ openStart _ _ _ children =>
    (if b then [] else [openStart]) ++ openAnchorsTs true children
  | .text _ _ _ => []
  | .exprEmpty _ _ => []
  | .expr _ _ inner => openAnchorsTs false inner

/-- `openAnchorsT` over a list of sibling trees. -/
def openAnchorsTs (b : Bool) : List JTree → List Nat
  | [] => []
  | t :: ts => openAnchorsT b t ++ openAnchorsTs b ts

/-- `openAnchorsT` over one attribute. -/
def openAnchorsA : JAttr → List Nat
  | .plain _ _ none => []
  | .plain _ _ (some v) => openAnchorsT false v
  | .spread _ _ _ => []

/-- `openAnchorsT` over an attribute list. -/
def openAnchorsAs : List JAttr → List Nat
  | [] => []
  | a :: rest => openAnchorsA a ++ openAnchorsAs rest
end

mutual
/-- Modelled from the spec: the anchors, in traversal order, at which JSX
nodes receive their matching closing backtick.  A nested node receives
none; a root element receives exactly one — at the end of the opening tag
when self-closing, at the closing tag otherwise — and a root fragment
receives exactly one at its closing marker. -/
def closeAnchorsT (b : Bool) : JTree → List Nat
  | .elem _ stop _ _ _ attrs children closing =>
    (if b then [] else if closing.isNone then [stop] else []) ++
    closeAnchorsAs attrs ++ closeAnchorsTs true children ++
    (if b then [] else Option.elim closing [] (fun c => [c.start]))
  | .frag _ _ _ _ closeStart _ children =>
    closeAnchorsTs true children ++ (if b then [] else [closeStart])
  | .text _ _ _ => []
  | .exprEmpty _ _ => []
  | .expr _ _ inner => closeAnchorsTs false inner

/-- `closeAnchorsT` over a list of sibling trees. -/
def closeAnchorsTs (b : Bool) : List JTree → List Nat
  | [] => []
  | t :: ts => closeAnchorsT b t ++ closeAnchorsTs b ts

/-- `closeAnchorsT` over one attribute. -/
def closeAnchorsA : JAttr → List Nat
  | .plain _ _ none => []
  | .plain _ _ (some v) => closeAnchorsT false v
  | .spread _ _ _ => []

/-- `closeAnchorsT` over an attribute list. -/
def closeAnchorsAs : List JAttr → List Nat
  | [] => []
  | a :: rest => closeAnchorsA a ++ closeAnchorsAs rest
end

/-- The last element of a concatenation whose right part is non-empty. -/
theorem getLast?_append_of_ne_nil {α : Type} (l1 l2 : List α) (h : l2 ≠ []) :
    (l1 ++ l2).getLast? = l2.getLast? := by
  rcases List.eq_nil_or_concat l2 with h2 | ⟨L, b, rfl⟩
  · exact absurd h2 h
  · rw [List.concat_eq_append, ← List.append_assoc,
      getLast?_append_singleton, getLast?_append_singleton]

/-- A prepended text not ending in a backtick is no opening delimiter. -/
theorem opener_prepend_false (tagc : List Char) (off : Nat) (s : List Char)
    (h : s.getLast? ≠ some bq) : isOpener tagc (Edit.prependString off s) = false := by
  simp only [isOpener]
  apply decide_eq_false
  intro he
  apply h
  rw [he, getLast?_append_singleton]

/-- A replacement text not ending in a backtick is no opening delimiter. -/
theorem opener_replace_false (tagc : List Char) (a b : Nat) (s : List Char)
    (h : s.getLast? ≠ some bq) : isOpener tagc (Edit.replaceWithString a b s) = false := by
  simp only [isOpener]
  apply decide_eq_false
  intro he
  apply h
  rw [he, getLast?_append_singleton]

/-- An appended text other than a lone backtick is no closing delimiter. -/
theorem closer_append_false (tagc : List Char) (off : Nat) (s : List Char)
    (h : s ≠ [bq]) : isCloser tagc (Edit.appendString off s) = false := by
  simp only [isCloser]
  exact decide_eq_false h

/-- A replacement text not ending in a backtick is no closing delimiter. -/
theorem closer_replace_false (tagc : List Char) (a b : Nat) (s : List Char)
    (h : s.getLast? ≠ some bq) : isCloser tagc (Edit.replaceWithString a b s) = false := by
  simp only [isCloser]
  rw [decide_eq_false h, Bool.false_and]

/-- A replacement text ending in a backtick but different from the opening
delimiter is a closing delimiter. -/
theorem closer_replace_true (tagc : List Char) (a b : Nat) (s : List Char)
    (h1 : s.getLast? = some bq) (h2 : s ≠ tagc ++ [bq]) :
    isCloser tagc (Edit.replaceWithString a b s) = true := by
  simp only [isCloser]
  rw [decide_eq_true h1, decide_eq_false h2]
  rfl

/-- A replacement text different from tag-plus-backtick is no opening
delimiter. -/
theorem opener_replace_false_ne (tagc : List Char) (a b : Nat) (s : List Char)
    (h : s ≠ tagc ++ [bq]) : isOpener tagc (Edit.replaceWithString a b s) = false := by
  simp only [isOpener]
  exact decide_eq_false h

/-- Removal edits are never opening delimiters. -/
theorem filter_opener_removes (tagc : List Char) (l : List Span) :
    List.filter (isOpener tagc) (l.map (fun sp => Edit.remove sp.start sp.stop)) = [] := by
  induction l with
  | nil => rfl
  | cons sp l ih => simp [List.filter_cons, isOpener, ih]

/-- Removal edits are never closing delimiters. -/
theorem filter_closer_removes (tagc : List Char) (l : List Span) :
    List.filter (isCloser tagc) (l.map (fun sp => Edit.remove sp.start sp.stop)) = [] := by
  induction l with
  | nil => rfl
  | cons sp l ih => simp [List.filter_cons, isCloser, ih]

/-- Comment-to-HTML edits are never opening delimiters. -/
theorem filter_opener_commentToHtml (tagc : List Char) (c : JComment) :
    List.filter (isOpener tagc) (commentToHtmlEdits c) = [] := by
  obtain ⟨ty, cs, ce⟩ := c
  have e1 := opener_replace_false tagc cs (cs + 2) "<!--".data (by decide)
  have e2 := opener_replace_false tagc (ce - 2) ce "-->".data (by decide)
  unfold commentToHtmlEdits
  cases ty <;> simp [List.filter_cons, isOpener, e1, e2]

/-- Comment-to-HTML edits are never closing delimiters. -/
theorem filter_closer_commentToHtml (tagc : List Char) (c : JComment) :
    List.filter (isCloser tagc) (commentToHtmlEdits c) = [] := by
  obtain ⟨ty, cs, ce⟩ := c
  have e1 := closer_append_false tagc ce "-->".data (by decide)
  unfold commentToHtmlEdits
  cases ty <;> simp [List.filter_cons, isCloser, e1]

/-- The opening delimiters of the opening-element rule: exactly one, at
the element's start, when the element is the root JSX node; none
otherwise. -/
theorem delim_opening_open (cfg : Options) (code : List Char) (cms : List JComment)
    (root : Bool) (start stop nameStart nameEnd : Nat) (name : JSXName)
    (attrRanges : List (Nat × Nat)) (selfClosing : Bool) :
    ((jsxOpeningElementEdits cfg code cms root start stop nameStart nameEnd name
      attrRanges selfClosing).filter (isOpener (tagString cfg))).map anchor =
      (if root then [start] else []) := by
  have hbq : ("`".data : List Char) = [bq] := by decide
  unfold jsxOpeningElementEdits
  rw [List.filter_append, List.filter_append, List.filter_append]
  have p1 : List.filter (isOpener (tagString cfg))
      (if isIdent name then
        [Edit.prependString nameStart "$\x7b".data, Edit.appendString nameEnd "\x7d".data]
       else []) = [] := by
    have e1 := opener_prepend_false (tagString cfg) nameStart "$\x7b".data (by decide)
    have e2 : isOpener (tagString cfg) (Edit.appendString nameEnd "\x7d".data) = false := rfl
    split
    · simp [List.filter_cons, e1, e2]
    · rfl
  have p2 : List.filter (isOpener (tagString cfg))
      (if attrRanges ≠ [] then
        (openingRemovalSpans code nameEnd (attrRanges.map Prod.snd)).map
          (fun sp => Edit.remove sp.start sp.stop)
       else []) = [] := by
    split
    · exact filter_opener_removes _ _
    · rfl
  have p3 : List.filter (isOpener (tagString cfg))
      (if root then
        Edit.prependString start (tagString cfg ++ "`".data) ::
          (if selfClosing then [Edit.appendString stop "`".data] else [])
       else []) =
      (if root then [Edit.prependString start (tagString cfg ++ "`".data)] else []) := by
    split
    · rw [List.filter_cons]
      rw [show isOpener (tagString cfg)
          (Edit.prependString start (tagString cfg ++ "`".data)) = true from by
        simp only [isOpener]
        exact decide_eq_true rfl]
      rw [if_pos rfl]
      congr 1
      have e3 : isOpener (tagString cfg) (Edit.appendString stop "`".data) = false := rfl
      split
      · simp [List.filter_cons, e3]
      · rfl
    · rfl
  have p4aux : ∀ (l : List JComment), List.filter (isOpener (tagString cfg))
      (l.flatMap (fun c =>
        if nameEnd ≤ c.start ∧ c.stop < stop then
          if attrRanges.any (fun a => a.1 ≤ c.start ∧ c.stop ≤ a.2) then []
          else commentToHtmlEdits c
        else [])) = [] := by
    intro l
    induction l with
    | nil => rfl
    | cons c rest ih =>
      rw [List.flatMap_cons, List.filter_append, ih, List.append_nil]
      split
      · split
        · rfl
        · exact filter_opener_commentToHtml _ c
      · rfl
  have p4 : List.filter (isOpener (tagString cfg))
      (if cms ≠ [] then
        cms.flatMap (fun c =>
          if nameEnd ≤ c.start ∧ c.stop < stop then
            if attrRanges.any (fun a => a.1 ≤ c.start ∧ c.stop ≤ a.2) then []
            else commentToHtmlEdits c
          else [])
       else []) = [] := by
    split
    · exact p4aux cms
    · rfl
  rw [p1, p2, p3, p4, List.nil_append, List.nil_append, List.append_nil]
  split
  · rfl
  · rfl

/-- The closing delimiters of the opening-element rule: exactly one, at
the end of the opening tag, when the element is the root JSX node and
self-closing; none otherwise. -/
theorem delim_opening_close (cfg : Options) (code : List Char) (cms : List JComment)
    (root : Bool) (start stop nameStart nameEnd : Nat) (name : JSXName)
    (attrRanges : List (Nat × Nat)) (selfClosing : Bool) :
    ((jsxOpeningElementEdits cfg code cms root start stop nameStart nameEnd name
      attrRanges selfClosing).filter (isCloser (tagString cfg))).map anchor =
      (if root then (if selfClosing then [stop] else []) else []) := by
  unfold jsxOpeningElementEdits
  rw [List.filter_append, List.filter_append, List.filter_append]
  have p1 : List.filter (isCloser (tagString cfg))
      (if isIdent name then
        [Edit.prependString nameStart "$\x7b".data, Edit.appendString nameEnd "\x7d".data]
       else []) = [] := by
    have e0 : isCloser (tagString cfg) (Edit.prependString nameStart "$\x7b".data) = false := rfl
    have e1 := closer_append_false (tagString cfg) nameEnd "\x7d".data (by decide)
    split
    · simp [List.filter_cons, e0, e1]
    · rfl
  have p2 : List.filter (isCloser (tagString cfg))
      (if attrRanges ≠ [] then
        (openingRemovalSpans code nameEnd (attrRanges.map Prod.snd)).map
          (fun sp => Edit.remove sp.start sp.stop)
       else []) = [] := by
    split
    · exact filter_closer_removes _ _
    · rfl
  have p3 : List.filter (isCloser (tagString cfg))
      (if root then
        Edit.prependString start (tagString cfg ++ "`".data) ::
          (if selfClosing then [Edit.appendString stop "`".data] else [])
       else []) =
      (if root then (if selfClosing then [Edit.appendString stop "`".data] else [])
       else []) := by
    have e2 : isCloser (tagString cfg) (Edit.appendString stop "`".data) = true := by
      simp only [isCloser]
      decide
    split
    · rw [List.filter_cons]
      rw [show isCloser (tagString cfg)
          (Edit.prependString start (tagString cfg ++ "`".data)) = false from rfl]
      rw [if_neg (by simp)]
      split
      · simp [List.filter_cons, e2]
      · rfl
    · rfl
  have p4aux : ∀ (l : List JComment), List.filter (isCloser (tagString cfg))
      (l.flatMap (fun c =>
        if nameEnd ≤ c.start ∧ c.stop < stop then
          if attrRanges.any (fun a => a.1 ≤ c.start ∧ c.stop ≤ a.2) then []
          else commentToHtmlEdits c
        else [])) = [] := by
    intro l
    induction l with
    | nil => rfl
    | cons c rest ih =>
      rw [List.flatMap_cons, List.filter_append, ih, List.append_nil]
      split
      · split
        · rfl
        · exact filter_closer_commentToHtml _ c
      · rfl
  have p4 : List.filter (isCloser (tagString cfg))
      (if cms ≠ [] then
        cms.flatMap (fun c =>
          if nameEnd ≤ c.start ∧ c.stop < stop then
            if attrRanges.any (fun a => a.1 ≤ c.start ∧ c.stop ≤ a.2) then []
            else commentToHtmlEdits c
          else [])
       else []) = [] := by
    split
    · exact p4aux cms
    · rfl
  rw [p1, p2, p3, p4, List.nil_append, List.nil_append, List.append_nil]
  split
  · split
    · rfl
    · rfl
  · rfl

/-- A rendered closing tag `</…>…` never equals the opening delimiter: a
well-behaved tag name does not start with `<`. -/
theorem closing_str_ne (tagc : List Char) (ht : TagOk tagc) (name tail : List Char) :
    "</".data ++ name ++ ">".data ++ tail ≠ tagc ++ [bq] := by
  intro he
  obtain ⟨a, l, hl⟩ := List.exists_cons_of_ne_nil ht.1
  have hda : ("</".data : List Char) = '<' :: '/' :: [] := by decide
  rw [hda, hl, List.cons_append] at he
  simp only [List.cons_append, List.append_assoc] at he
  have hh : '<' = a := by
    have hq := congrArg List.head? he
    simpa using hq
  apply ht.2
  rw [hl, ← hh]
  rfl

/-- The closing-element rule never emits an opening delimiter. -/
theorem delim_closing_open (cfg : Options) (root : Bool) (c : JClose)
    (ht : TagOk (tagString cfg)) :
    ((jsxClosingElementEdits cfg root c).filter (isOpener (tagString cfg))).map anchor
      = [] := by
  simp only [jsxClosingElementEdits]
  rw [List.filter_cons, List.filter_nil]
  rw [show isOpener (tagString cfg) (Edit.replaceWithString c.start c.stop
      ("</".data ++ (if isIdent c.name then
          (if cfg.terse then "/".data
           else "$\x7b".data ++ nameNameCoerced c.name ++ "\x7d".data)
         else nameNameCoerced c.name) ++ ">".data ++
        (if root then "`".data else []))) = false from
    opener_replace_false_ne _ _ _ _ (closing_str_ne _ ht _ _)]
  rfl

/-- The closing delimiters of the closing-element rule: exactly one, at
the closing tag's start, when the element is the root JSX node; none
otherwise. -/
theorem delim_closing_close (cfg : Options) (root : Bool) (c : JClose)
    (ht : TagOk (tagString cfg)) :
    ((jsxClosingElementEdits cfg root c).filter (isCloser (tagString cfg))).map anchor
      = (if root then [c.start] else []) := by
  simp only [jsxClosingElementEdits]
  rw [List.filter_cons, List.filter_nil]
  cases root with
  | true =>
    rw [show isCloser (tagString cfg) (Edit.replaceWithString c.start c.stop
        ("</".data ++ (if isIdent c.name then
            (if cfg.terse then "/".data
             else "$\x7b".data ++ nameNameCoerced c.name ++ "\x7d".data)
           else nameNameCoerced c.name) ++ ">".data ++
          (if (true : Bool) then "`".data else []))) = true from by
      apply closer_replace_true
      · rw [if_pos rfl, getLast?_append_of_ne_nil _ _ (by decide)]
        decide
      · exact closing_str_ne _ ht _ _]
    rfl
  | false =>
    rw [show isCloser (tagString cfg) (Edit.replaceWithString c.start c.stop
        ("</".data ++ (if isIdent c.name then
            (if cfg.terse then "/".data
             else "$\x7b".data ++ nameNameCoerced c.name ++ "\x7d".data)
           else nameNameCoerced c.name) ++ ">".data ++
          (if (false : Bool) then "`".data else []))) = false from by
      apply closer_replace_false
      rw [show (if false = true then "`".data else ([] : List Char)) = [] from rfl,
        List.append_nil, getLast?_append_of_ne_nil _ _ (by decide)]
      decide]
    rfl

/-- The opening delimiter of a root fragment is never itself a closing
delimiter. -/
theorem closer_on_opener_false (tagc : List Char) (a b : Nat) :
    isCloser tagc (Edit.replaceWithString a b (tagc ++ "`".data)) = false := by
  simp only [isCloser]
  rw [show decide (tagc ++ "`".data = tagc ++ [bq]) = true from decide_eq_true rfl]
  rw [Bool.not_true, Bool.and_false]

/-- A lone backtick differs from tag-plus-backtick when the tag name is
non-empty. -/
theorem bq_ne_tag_bq (tagc : List Char) (h : tagc ≠ []) :
    ("`".data : List Char) ≠ tagc ++ [bq] := by
  intro he
  apply h
  have hlen := congrArg List.length he
  rw [List.length_append] at hlen
  rw [show (("`".data : List Char)).length = 1 from by decide] at hlen
  rw [show ([bq] : List Char).length = 1 from by decide] at hlen
  exact List.eq_nil_of_length_eq_zero (by omega)

/-- The delimiters of the opening-fragment rule: exactly one opening
delimiter, at the opening marker, when the fragment is the root JSX node;
no closing delimiter ever. -/
theorem delim_frag_open (cfg : Options) (root : Bool) (os oe : Nat) :
    ((jsxOpeningFragmentEdits cfg root os oe).filter (isOpener (tagString cfg))).map anchor
        = (if root then [os] else []) ∧
    ((jsxOpeningFragmentEdits cfg root os oe).filter (isCloser (tagString cfg))).map anchor
        = [] := by
  unfold jsxOpeningFragmentEdits
  constructor
  · split
    · rw [List.filter_cons, List.filter_nil]
      rw [show isOpener (tagString cfg)
          (Edit.replaceWithString os oe (tagString cfg ++ "`".data)) = true from by
        simp only [isOpener]
        exact decide_eq_true rfl]
      rfl
    · rw [List.filter_cons, List.filter_nil]
      rw [show isOpener (tagString cfg) (Edit.remove os oe) = false from rfl]
      rfl
  · split
    · rw [List.filter_cons, List.filter_nil, closer_on_opener_false]
      rfl
    · rw [List.filter_cons, List.filter_nil]
      rw [show isCloser (tagString cfg) (Edit.remove os oe) = false from rfl]
      rfl

/-- The delimiters of the closing-fragment rule: exactly one closing
delimiter, at the closing marker, when the fragment is the root JSX node;
no opening delimiter ever. -/
theorem delim_frag_close (cfg : Options) (root : Bool) (cs ce : Nat)
    (ht : TagOk (tagString cfg)) :
    ((jsxClosingFragmentEdits root cs ce).filter (isOpener (tagString cfg))).map anchor
        = [] ∧
    ((jsxClosingFragmentEdits root cs ce).filter (isCloser (tagString cfg))).map anchor
        = (if root then [cs] else []) := by
  unfold jsxClosingFragmentEdits
  constructor
  · split
    · rw [List.filter_cons, List.filter_nil]
      rw [show isOpener (tagString cfg)
          (Edit.replaceWithString cs ce "`".data) = false from
        opener_replace_false_ne _ _ _ _ (bq_ne_tag_bq _ ht.1)]
      rfl
    · rw [List.filter_cons, List.filter_nil]
      rw [show isOpener (tagString cfg) (Edit.remove cs ce) = false from rfl]
      rfl
  · split
    · rw [List.filter_cons, List.filter_nil]
      rw [show isCloser (tagString cfg)
          (Edit.replaceWithString cs ce "`".data) = true from by
        apply closer_replace_true
        · decide
        · exact bq_ne_tag_bq _ ht.1]
      rfl
    · rw [List.filter_cons, List.filter_nil]
      rw [show isCloser (tagString cfg) (Edit.remove cs ce) = false from rfl]
      rfl

/-- The text rule emits no delimiter when the text holds no backtick. -/
theorem delim_text (tagc : List Char) (start stop : Nat) (value : List Char)
    (h : bq ∉ value) :
    List.filter (isOpener tagc) (jsxTextEdits start stop value) = [] ∧
    List.filter (isCloser tagc) (jsxTextEdits start stop value) = [] := by
  have hlast : value.getLast? ≠ some bq := by
    intro hg
    exact h (List.mem_of_getLast?_eq_some hg)
  have hne : value ≠ tagc ++ [bq] := by
    intro he
    apply h
    rw [he]
    simp
  have hwl : ("$\x7b`".data ++ value ++ "`\x7d".data).getLast? ≠ some bq := by
    rw [getLast?_append_of_ne_nil _ _ (by decide)]
    decide
  constructor
  · unfold jsxTextEdits
    split
    · rw [List.filter_cons, List.filter_nil, opener_replace_false _ _ _ _ hwl]
      rfl
    · rw [List.filter_cons, List.filter_nil, opener_replace_false_ne _ _ _ _ hne]
      rfl
  · unfold jsxTextEdits
    split
    · rw [List.filter_cons, List.filter_nil, closer_replace_false _ _ _ _ hwl]
      rfl
    · rw [List.filter_cons, List.filter_nil, closer_replace_false _ _ _ _ hlast]
      rfl

/-- The spread-attribute rule emits no delimiter when the argument text
holds no backtick. -/
theorem delim_spread (tagc : List Char) (start stop : Nat) (argText : List Char)
    (h : bq ∉ argText) :
    List.filter (isOpener tagc) (jsxSpreadAttributeEdits start stop argText) = [] ∧
    List.filter (isCloser tagc) (jsxSpreadAttributeEdits start stop argText) = [] := by
  have hlast : argText.getLast? ≠ some bq := by
    intro hg
    exact h (List.mem_of_getLast?_eq_some hg)
  have hne : argText ≠ tagc ++ [bq] := by
    intro he
    apply h
    rw [he]
    simp
  unfold jsxSpreadAttributeEdits
  constructor
  · have e1 := opener_replace_false_ne tagc start stop argText hne
    have e2 := opener_prepend_false tagc start "...$\x7b".data (by decide)
    have e3 : isOpener tagc (Edit.appendString stop "\x7d".data) = false := rfl
    simp [List.filter_cons, e1, e2, e3]
  · have e1 := closer_replace_false tagc start stop argText hlast
    have e2 : isCloser tagc (Edit.prependString start "...$\x7b".data) = false := rfl
    have e3 := closer_append_false tagc stop "\x7d".data (by decide)
    simp [List.filter_cons, e1, e2, e3]

/-- The expression-container rule emits no delimiter. -/
theorem delim_exprContainer (tagc : List Char) (start stop : Nat) (empty : Bool) :
    List.filter (isOpener tagc) (jsxExpressionContainerEdits start stop empty) = [] ∧
    List.filter (isCloser tagc) (jsxExpressionContainerEdits start stop empty) = [] := by
  unfold jsxExpressionContainerEdits
  constructor
  · split
    · rw [List.filter_cons, List.filter_nil]
      rfl
    · rw [List.filter_cons, List.filter_nil,
        opener_prepend_false _ _ _ (by decide)]
      rfl
  · split
    · rw [List.filter_cons, List.filter_nil]
      rfl
    · rw [List.filter_cons, List.filter_nil]
      rfl

/-- The inserted import statement is no opening delimiter (it ends in a
newline, not a backtick). -/
theorem opener_importStmt (cfg : Options) (off : Nat) :
    isOpener (tagString cfg) (Edit.prependString off (importStmt cfg)) = false := by
  apply opener_prepend_false
  unfold importStmt
  rw [getLast?_append_of_ne_nil _ _ (by decide)]
  decide

mutual
/-- The delimiters of one tree's traversal: the edits classified as
opening (resp. closing) delimiters sit exactly at the spec-side anchors,
in traversal order. -/
theorem delim_visitTree (cfg : Options) (code : List Char) (cms : List JComment)
    (ht : TagOk (tagString cfg)) (b : Bool) (t : JTree) (hn : noBkT t = true) :
    ((visitTree cfg code cms b t).filter (isOpener (tagString cfg))).map anchor
        = openAnchorsT b t ∧
    ((visitTree cfg code cms b t).filter (isCloser (tagString cfg))).map anchor
        = closeAnchorsT b t := by
  cases t with
  | elem start stop nameStart nameEnd name attrs children closing =>
    rw [noBkT, Bool.and_eq_true] at hn
    obtain ⟨hna, hnc⟩ := hn
    have hA := delim_visitAttrs cfg code cms ht attrs hna
    have hC := delim_visitTrees cfg code cms ht true children hnc
    constructor
    · rw [visitTree]
      rw [List.filter_append, List.filter_append, List.filter_append,
        List.map_append, List.map_append, List.map_append]
      rw [delim_opening_open, hA.1, hC.1, openAnchorsT]
      cases closing with
      | none =>
        rw [show (Option.elim (none : Option JClose) []
            (fun c => jsxClosingElementEdits cfg (!b) c) : List Edit) = [] from rfl]
        cases b <;> simp
      | some c =>
        rw [show (Option.elim (some c) []
            (fun c => jsxClosingElementEdits cfg (!b) c) : List Edit)
            = jsxClosingElementEdits cfg (!b) c from rfl]
        rw [delim_closing_open cfg (!b) c ht]
        cases b <;> simp
    · rw [visitTree]
      rw [List.filter_append, List.filter_append, List.filter_append,
        List.map_append, List.map_append, List.map_append]
      rw [delim_opening_close, hA.2, hC.2, closeAnchorsT]
      cases closing with
      | none =>
        rw [show (Option.elim (none : Option JClose) []
            (fun c => jsxClosingElementEdits cfg (!b) c) : List Edit) = [] from rfl]
        cases b <;> simp
      | some c =>
        rw [show (Option.elim (some c) []
            (fun c => jsxClosingElementEdits cfg (!b) c) : List Edit)
            = jsxClosingElementEdits cfg (!b) c from rfl]
        rw [delim_closing_close cfg (!b) c ht]
        cases b <;> simp
  | frag start stop openStart openStop closeStart closeStop children =>
    rw [noBkT] at hn
    have hC := delim_visitTrees cfg code cms ht true children hn
    have hO := delim_frag_open cfg (!b) openStart openStop
    have hCl := delim_frag_close cfg (!b) closeStart closeStop ht
    constructor
    · rw [visitTree]
      rw [List.filter_append, List.filter_append, List.map_append, List.map_append]
      rw [hO.1, hC.1, hCl.1, openAnchorsT]
      cases b <;> simp
    · rw [visitTree]
      rw [List.filter_append, List.filter_append, List.map_append, List.map_append]
      rw [hO.2, hC.2, hCl.2, closeAnchorsT]
      cases b <;> simp
  | text start stop value =>
    rw [noBkT] at hn
    have hv : bq ∉ value := of_decide_eq_true hn
    have h := delim_text (tagString cfg) start stop value hv
    constructor
    · rw [visitTree, h.1, openAnchorsT]
      rfl
    · rw [visitTree, h.2, closeAnchorsT]
      rfl
  | exprEmpty start stop =>
    have h := delim_exprContainer (tagString cfg) start stop true
    constructor
    · rw [visitTree, h.1, openAnchorsT]
      rfl
    · rw [visitTree, h.2, closeAnchorsT]
      rfl
  | expr start stop inner =>
    rw [noBkT] at hn
    have hI := delim_visitTrees cfg code cms ht false inner hn
    have h := delim_exprContainer (tagString cfg) start stop false
    constructor
    · rw [visitTree]
      rw [List.filter_append, List.map_append, h.1, hI.1, openAnchorsT]
      rfl
    · rw [visitTree]
      rw [List.filter_append, List.map_append, h.2, hI.2, closeAnchorsT]
      rfl

/-- `delim_visitTree` over a list of sibling trees. -/
theorem delim_visitTrees (cfg : Options) (code : List Char) (cms : List JComment)
    (ht : TagOk (tagString cfg)) (b : Bool) (ts : List JTree) (hn : noBkTs ts = true) :
    ((visitTrees cfg code cms b ts).filter (isOpener (tagString cfg))).map anchor
        = openAnchorsTs b ts ∧
    ((visitTrees cfg code cms b ts).filter (isCloser (tagString cfg))).map anchor
        = closeAnchorsTs b ts := by
  cases ts with
  | nil => exact ⟨rfl, rfl⟩
  | cons t ts =>
    rw [noBkTs, Bool.and_eq_true] at hn
    obtain ⟨h1, h2⟩ := hn
    have ha := delim_visitTree cfg code cms ht b t h1
    have hb := delim_visitTrees cfg code cms ht b ts h2
    constructor
    · rw [visitTrees, List.filter_append, List.map_append, ha.1, hb.1, openAnchorsTs]
    · rw [visitTrees, List.filter_append, List.map_append, ha.2, hb.2, closeAnchorsTs]

/-- `delim_visitTree` over one attribute. -/
theorem delim_visitAttr (cfg : Options) (code : List Char) (cms : List JComment)
    (ht : TagOk (tagString cfg)) (a : JAttr) (hn : noBkA a = true) :
    ((visitAttr cfg code cms a).filter (isOpener (tagString cfg))).map anchor
        = openAnchorsA a ∧
    ((visitAttr cfg code cms a).filter (isCloser (tagString cfg))).map anchor
        = closeAnchorsA a := by
  cases a with
  | plain start stop value =>
    cases value with
    | none => exact ⟨rfl, rfl⟩
    | some v =>
      rw [noBkA] at hn
      have h := delim_visitTree cfg code cms ht false v hn
      constructor
      · rw [visitAttr, h.1, openAnchorsA]
      · rw [visitAttr, h.2, closeAnchorsA]
  | spread start stop argText =>
    rw [noBkA] at hn
    have hv : bq ∉ argText := of_decide_eq_true hn
    have h := delim_spread (tagString cfg) start stop argText hv
    constructor
    · rw [visitAttr, h.1, openAnchorsA]
      rfl
    · rw [visitAttr, h.2, closeAnchorsA]
      rfl

/-- `delim_visitTree` over an attribute list. -/
theorem delim_visitAttrs (cfg : Options) (code : List Char) (cms : List JComment)
    (ht : TagOk (tagString cfg)) (attrs : List JAttr) (hn : noBkAs attrs = true) :
    ((visitAttrs cfg code cms attrs).filter (isOpener (tagString cfg))).map anchor
        = openAnchorsAs attrs ∧
    ((visitAttrs cfg code cms attrs).filter (isCloser (tagString cfg))).map anchor
        = closeAnchorsAs attrs := by
  cases attrs with
  | nil => exact ⟨rfl, rfl⟩
  | cons a rest =>
    rw [noBkAs, Bool.and_eq_true] at hn
    obtain ⟨h1, h2⟩ := hn
    have ha := delim_visitAttr cfg code cms ht a h1
    have hb := delim_visitAttrs cfg code cms ht rest h2
    constructor
    · rw [visitAttrs, List.filter_append, List.map_append, ha.1, hb.1, openAnchorsAs]
    · rw [visitAttrs, List.filter_append, List.map_append, ha.2, hb.2, closeAnchorsAs]
end

/-- Claim C1: root delimiting.  With a well-behaved tag name and
backtick-free raw texts, the edits of the whole transform classified as
opening delimiters (inserted text equal to the configured tag name
followed by a backtick) sit exactly at the starts of the root JSX nodes —
one per root element or fragment, in traversal order, none for nested
nodes — and the edits classified as closing backticks sit exactly at the
matching anchors: the end of a self-closing root element's opening tag,
the closing tag of any other root element, the closing marker of a root
fragment — again exactly one per root node and none for nested nodes. -/
theorem c1_root_delimiters (cfg : Options) (code : List Char) (p : JProgram)
    (ht : TagOk (tagString cfg)) (hn : noBkTs p.trees = true) :
    ((visitProgram cfg code p).filter (isOpener (tagString cfg))).map anchor
        = openAnchorsTs false p.trees ∧
    ((visitProgram cfg code p).filter (isCloser (tagString cfg))).map anchor
        = closeAnchorsTs false p.trees := by
  have h := delim_visitTrees cfg code p.comments ht false p.trees hn
  have hex1 : List.filter (isOpener (tagString cfg))
      (programExitEdits cfg (jsxFlagTrees p.trees) p.bodyStart) = [] := by
    unfold programExitEdits
    split
    · rw [List.filter_cons, List.filter_nil, opener_importStmt]
      rfl
    · rfl
  have hex2 : List.filter (isCloser (tagString cfg))
      (programExitEdits cfg (jsxFlagTrees p.trees) p.bodyStart) = [] := by
    unfold programExitEdits
    split
    · rw [List.filter_cons, List.filter_nil]
      rw [show isCloser (tagString cfg)
          (Edit.prependString p.bodyStart (importStmt cfg)) = false from rfl]
      rfl
    · rfl
  constructor
  · unfold visitProgram
    rw [List.filter_append, List.map_append, h.1, hex1]
    simp
  · unfold visitProgram
    rw [List.filter_append, List.map_append, h.2, hex2]
    simp

/-- Concrete instantiation of claim C1 on `<div><a>hi</a></div>`: the
outer `div` is the only root node — one opening delimiter at offset 0 and
one closing backtick at the closing tag (offset 14); the nested `a` gets
none. -/
theorem c1_root_delimiters_witness :
    ((visitProgram {} "<div><a>hi</a></div>".data
        (JProgram.mk 0
          [JTree.elem 0 5 1 4 (.ident "div".data) []
            [JTree.elem 5 8 6 7 (.ident "a".data) [] [JTree.text 8 10 "hi".data]
              (some ⟨10, 14, .ident "a".data⟩)]
            (some ⟨14, 20, .ident "div".data⟩)] [])).filter
      (isOpener (tagString {}))).map anchor
        = openAnchorsTs false
            (JProgram.mk 0
              [JTree.elem 0 5 1 4 (.ident "div".data) []
                [JTree.elem 5 8 6 7 (.ident "a".data) [] [JTree.text 8 10 "hi".data]
                  (some ⟨10, 14, .ident "a".data⟩)]
                (some ⟨14, 20, .ident "div".data⟩)] []).trees ∧
    ((visitProgram {} "<div><a>hi</a></div>".data
        (JProgram.mk 0
          [JTree.elem 0 5 1 4 (.ident "div".data) []
            [JTree.elem 5 8 6 7 (.ident "a".data) [] [JTree.text 8 10 "hi".data]
              (some ⟨10, 14, .ident "a".data⟩)]
            (some ⟨14, 20, .ident "div".data⟩)] [])).filter
      (isCloser (tagString {}))).map anchor
        = closeAnchorsTs false
            (JProgram.mk 0
              [JTree.elem 0 5 1 4 (.ident "div".data) []
                [JTree.elem 5 8 6 7 (.ident "a".data) [] [JTree.text 8 10 "hi".data]
                  (some ⟨10, 14, .ident "a".data⟩)]
                (some ⟨14, 20, .ident "div".data⟩)] []).trees :=
  c1_root_delimiters {} "<div><a>hi</a></div>".data
    (JProgram.mk 0
      [JTree.elem 0 5 1 4 (.ident "div".data) []
        [JTree.elem 5 8 6 7 (.ident "a".data) [] [JTree.text 8 10 "hi".data]
          (some ⟨10, 14, .ident "a".data⟩)]
        (some ⟨14, 20, .ident "div".data⟩)] [])
    (by decide) (by decide)

/-! ### Claim C9: non-JSX content is untouched -/

/-- The offset range an edit acts on: the insertion point twice for pure
insertions, the edited range for removals, overwrites and
replacements. -/
def editBounds : Edit → Nat × Nat
  | .prependString off _ => (off, off)
  | .appendString off _ => (off, off)
  | .remove s e => (s, e)
  | .overwrite s e _ => (s, e)
  | .replaceWithString s e _ => (s, e)

/-- An edit touches the source region strictly between `lo` and `hi`: a
pure insertion lands strictly inside it, or an edited range overlaps its
interior.  (An insertion exactly at a region boundary leaves the region's
bytes intact.) -/
def touches (lo hi : Nat) : Edit → Bool
  | .prependString off _ => decide (lo < off) && decide (off < hi)
  | .appendString off _ => decide (lo < off) && decide (off < hi)
  | .remove s e => decide (s < hi) && decide (lo < e)
  | .overwrite s e _ => decide (s < hi) && decide (lo < e)
  | .replaceWithString s e _ => decide (s < hi) && decide (lo < e)

mutual
/-- Offset well-formedness of a tree, as guaranteed by an actual parse of
the source: tag-name and attribute offsets nest inside the opening tag,
the closing tag follows it, fragment markers and children nest inside the
node, and the comment-removal scans of the opening-element rule stay
inside the opening tag. -/
def wfT (code : List Char) : JTree → Bool
  | .elem start stop nameStart nameEnd _ attrs children closing =>
    decide (start ≤ nameStart) && decide (nameStart ≤ nameEnd) && decide (nameEnd ≤ stop) &&
    Option.elim closing true (fun c => decide (stop ≤ c.start) && decide (c.start ≤ c.stop)) &&
    (openingRemovalSpans code nameEnd ((attrs.map attrRange).map Prod.snd)).all
      (fun sp => decide (start ≤ sp.start) && decide (sp.stop ≤ stop)) &&
    attrs.all (fun a => decide (nameEnd ≤ (attrRange a).1) && decide ((attrRange a).2 ≤ stop)) &&
    children.all (fun c => decide (start ≤ treeStart c) &&
      decide (treeStop c ≤ Option.elim closing stop (fun cl => cl.stop))) &&
    wfAs code attrs && wfTs code children
  | .frag start stop openStart openStop closeStart closeStop children =>
    decide (start ≤ openStart) && decide (openStart ≤ openStop) &&
    decide (openStop ≤ closeStart) && decide (closeStart ≤ closeStop) &&
    decide (closeStop ≤ stop) &&
    children.all (fun c => decide (start ≤ treeStart c) && decide (treeStop c ≤ stop)) &&
    wfTs code children
  | .text _ _ _ => true
  | .exprEmpty _ _ => true
  | .expr start stop inner =>
    decide (start ≤ stop) &&
    inner.all (fun c => decide (start ≤ treeStart c) && decide (treeStop c ≤ stop)) &&
    wfTs code inner

/-- `wfT` over a list of sibling trees. -/
def wfTs (code : List Char) : List JTree → Bool
  | [] => true
  | t :: ts => wfT code t && wfTs code ts

/-- `wfT` over one attribute: the attribute's range is ordered and its
value tree, when present, nests inside it. -/
def wfA (code : List Char) : JAttr → Bool
  | .plain start stop none => decide (start ≤ stop)
  | .plain start stop (some v) =>
    decide (start ≤ stop) && decide (start ≤ treeStart v) && decide (treeStop v ≤ stop) &&
    wfT code v
  | .spread start stop _ => decide (start ≤ stop)

/-- `wfT` over an attribute list. -/
def wfAs (code : List Char) : List JAttr → Bool
  | [] => true
  | a :: rest => wfA code a && wfAs code rest
end

/-- Every edit of the opening-element rule acts inside the opening tag's
offset range. -/
theorem bounds_opening (cfg : Options) (code : List Char) (cms : List JComment)
    (root : Bool) (start stop nameStart nameEnd : Nat) (name : JSXName)
    (attrRanges : List (Nat × Nat)) (selfClosing : Bool)
    (hc : ∀ c ∈ cms, c.start + 2 ≤ c.stop)
    (h1 : start ≤ nameStart) (h2 : nameStart ≤ nameEnd) (h3 : nameEnd ≤ stop)
    (hscan : ∀ sp ∈ openingRemovalSpans code nameEnd (attrRanges.map Prod.snd),
      start ≤ sp.start ∧ sp.stop ≤ stop) :
    ∀ e ∈ jsxOpeningElementEdits cfg code cms root start stop nameStart nameEnd name
        attrRanges selfClosing,
      start ≤ (editBounds e).1 ∧ (editBounds e).2 ≤ stop := by
  intro e he
  unfold jsxOpeningElementEdits at he
  simp only [List.mem_append] at he
  rcases he with ((hA | hB) | hC) | hD
  · split at hA
    · simp only [List.mem_cons, List.not_mem_nil, or_false] at hA
      rcases hA with rfl | rfl <;> (dsimp only [editBounds]; omega)
    · exact absurd hA (List.not_mem_nil e)
  · split at hB
    · obtain ⟨sp, hsp, rfl⟩ := List.mem_map.mp hB
      have hb := hscan sp hsp
      dsimp only [editBounds]
      omega
    · exact absurd hB (List.not_mem_nil e)
  · split at hC
    · simp only [List.mem_cons] at hC
      rcases hC with rfl | hC
      · dsimp only [editBounds]; omega
      · split at hC
        · simp only [List.mem_cons, List.not_mem_nil, or_false] at hC
          subst hC
          dsimp only [editBounds]; omega
        · exact absurd hC (List.not_mem_nil e)
    · exact absurd hC (List.not_mem_nil e)
  · split at hD
    · obtain ⟨c, hcm, hce⟩ := List.mem_flatMap.mp hD
      split at hce
      · split at hce
        · exact absurd hce (List.not_mem_nil e)
        · rename_i hguard hinner
          have hcc := hc c hcm
          obtain ⟨hg1, hg2⟩ := hguard
          unfold commentToHtmlEdits at hce
          simp only [List.mem_cons] at hce
          rcases hce with rfl | hce
          · dsimp only [editBounds]; omega
          · cases hct : c.type
            · rw [hct] at hce
              simp only [List.mem_cons, List.not_mem_nil, or_false] at hce
              subst hce
              dsimp only [editBounds]; omega
            · rw [hct] at hce
              simp only [List.mem_cons, List.not_mem_nil, or_false] at hce
              subst hce
              dsimp only [editBounds]; omega
      · exact absurd hce (List.not_mem_nil e)
    · exact absurd hD (List.not_mem_nil e)

mutual
/-- Every edit of a well-formed tree's traversal acts inside the tree's
offset range. -/
theorem bounds_visitTree (cfg : Options) (code : List Char) (cms : List JComment)
    (hc : ∀ c ∈ cms, c.start + 2 ≤ c.stop) (b : Bool) (t : JTree)
    (hw : wfT code t = true) :
    ∀ e ∈ visitTree cfg code cms b t,
      treeStart t ≤ (editBounds e).1 ∧ (editBounds e).2 ≤ treeStop t := by
  cases t with
  | elem start stop nameStart nameEnd name attrs children closing =>
    cases closing with
    | none =>
      rw [wfT] at hw
      simp only [Option.elim, Bool.and_eq_true, decide_eq_true_eq, List.all_eq_true] at hw
      obtain ⟨⟨⟨⟨⟨⟨⟨⟨h1, h2⟩, h3⟩, _⟩, hscan⟩, hattr⟩, hchild⟩, hwa⟩, hwc⟩ := hw
      intro e he
      rw [visitTree] at he
      simp only [List.mem_append] at he
      dsimp only [treeStart, treeStop]
      rcases he with ((hO | hA) | hC) | hCl
      · exact bounds_opening cfg code cms _ start stop nameStart nameEnd name
          (attrs.map attrRange) _ hc h1 h2 h3 hscan e hO
      · obtain ⟨a, ham, hb⟩ := bounds_visitAttrs cfg code cms hc attrs hwa e hA
        have h4 := hattr a ham
        exact ⟨by omega, by omega⟩
      · obtain ⟨t', htm, hb⟩ := bounds_visitTrees cfg code cms hc true children hwc e hC
        have h4 := hchild t' htm
        exact ⟨by omega, by omega⟩
      · exact absurd hCl (List.not_mem_nil e)
    | some c =>
      rw [wfT] at hw
      simp only [Option.elim, Bool.and_eq_true, decide_eq_true_eq, List.all_eq_true] at hw
      obtain ⟨⟨⟨⟨⟨⟨⟨⟨h1, h2⟩, h3⟩, hopt⟩, hscan⟩, hattr⟩, hchild⟩, hwa⟩, hwc⟩ := hw
      intro e he
      rw [visitTree] at he
      simp only [List.mem_append] at he
      dsimp only [treeStart, treeStop]
      rcases he with ((hO | hA) | hC) | hCl
      · have hb := bounds_opening cfg code cms _ start stop nameStart nameEnd name
          (attrs.map attrRange) _ hc h1 h2 h3 hscan e hO
        exact ⟨hb.1, by omega⟩
      · obtain ⟨a, ham, hb⟩ := bounds_visitAttrs cfg code cms hc attrs hwa e hA
        have h4 := hattr a ham
        exact ⟨by omega, by omega⟩
      · obtain ⟨t', htm, hb⟩ := bounds_visitTrees cfg code cms hc true children hwc e hC
        have h4 := hchild t' htm
        exact ⟨by omega, by omega⟩
      · simp only [Option.elim] at hCl
        unfold jsxClosingElementEdits at hCl
        simp only [List.mem_cons, List.not_mem_nil, or_false] at hCl
        subst hCl
        dsimp only [editBounds]
        omega
  | frag start stop openStart openStop closeStart closeStop children =>
    rw [wfT] at hw
    simp only [Bool.and_eq_true, decide_eq_true_eq, List.all_eq_true] at hw
    obtain ⟨⟨⟨⟨⟨⟨h1, h2⟩, h3⟩, h4⟩, h5⟩, hchild⟩, hwc⟩ := hw
    intro e he
    rw [visitTree] at he
    simp only [List.mem_append] at he
    dsimp only [treeStart, treeStop]
    rcases he with (hO | hC) | hCl
    · unfold jsxOpeningFragmentEdits at hO
      split at hO <;>
        (simp only [List.mem_cons, List.not_mem_nil, or_false] at hO; subst hO;
         dsimp only [editBounds]; omega)
    · obtain ⟨t', htm, hb⟩ := bounds_visitTrees cfg code cms hc true children hwc e hC
      have h6 := hchild t' htm
      exact ⟨by omega, by omega⟩
    · unfold jsxClosingFragmentEdits at hCl
      split at hCl <;>
        (simp only [List.mem_cons, List.not_mem_nil, or_false] at hCl; subst hCl;
         dsimp only [editBounds]; omega)
  | text start stop value =>
    intro e he
    rw [visitTree] at he
    unfold jsxTextEdits at he
    dsimp only [treeStart, treeStop]
    split at he <;>
      (simp only [List.mem_cons, List.not_mem_nil, or_false] at he; subst he;
       dsimp only [editBounds]; omega)
  | exprEmpty start stop =>
    intro e he
    rw [visitTree] at he
    unfold jsxExpressionContainerEdits at he
    dsimp only [treeStart, treeStop]
    rw [if_pos rfl] at he
    simp only [List.mem_cons, List.not_mem_nil, or_false] at he
    subst he
    dsimp only [editBounds]
    omega
  | expr start stop inner =>
    rw [wfT] at hw
    simp only [Bool.and_eq_true, decide_eq_true_eq, List.all_eq_true] at hw
    obtain ⟨⟨hss, hin⟩, hwc⟩ := hw
    intro e he
    rw [visitTree] at he
    simp only [List.mem_append] at he
    dsimp only [treeStart, treeStop]
    rcases he with hE | hI
    · unfold jsxExpressionContainerEdits at hE
      rw [if_neg (show ¬(false = true) by simp)] at hE
      simp only [List.mem_cons, List.not_mem_nil, or_false] at hE
      subst hE
      dsimp only [editBounds]
      omega
    · obtain ⟨t', htm, hb⟩ := bounds_visitTrees cfg code cms hc false inner hwc e hI
      have h6 := hin t' htm
      exact ⟨by omega, by omega⟩

/-- Every edit of a well-formed sibling list's traversal acts inside one
of the trees' offset ranges. -/
theorem bounds_visitTrees (cfg : Options) (code : List Char) (cms : List JComment)
    (hc : ∀ c ∈ cms, c.start + 2 ≤ c.stop) (b : Bool) (ts : List JTree)
    (hw : wfTs code ts = true) :
    ∀ e ∈ visitTrees cfg code cms b ts,
      ∃ t ∈ ts, treeStart t ≤ (editBounds e).1 ∧ (editBounds e).2 ≤ treeStop t := by
  cases ts with
  | nil => intro e he; exact absurd he (List.not_mem_nil e)
  | cons t ts =>
    rw [wfTs, Bool.and_eq_true] at hw
    intro e he
    rw [visitTrees, List.mem_append] at he
    rcases he with he | he
    · exact ⟨t, List.mem_cons_self t ts, bounds_visitTree cfg code cms hc b t hw.1 e he⟩
    · obtain ⟨t', ht', hb⟩ := bounds_visitTrees cfg code cms hc b ts hw.2 e he
      exact ⟨t', List.mem_cons_of_mem t ht', hb⟩

/-- Every edit of a well-formed attribute's traversal acts inside the
attribute's offset range. -/
theorem bounds_visitAttr (cfg : Options) (code : List Char) (cms : List JComment)
    (hc : ∀ c ∈ cms, c.start + 2 ≤ c.stop) (a : JAttr)
    (hw : wfA code a = true) :
    ∀ e ∈ visitAttr cfg code cms a,
      (attrRange a).1 ≤ (editBounds e).1 ∧ (editBounds e).2 ≤ (attrRange a).2 := by
  cases a with
  | plain start stop value =>
    cases value with
    | none => intro e he; exact absurd he (List.not_mem_nil e)
    | some v =>
      rw [wfA] at hw
      simp only [Bool.and_eq_true, decide_eq_true_eq] at hw
      obtain ⟨⟨⟨hss, hsv⟩, hvs⟩, hwv⟩ := hw
      intro e he
      rw [visitAttr] at he
      have hb := bounds_visitTree cfg code cms hc false v hwv e he
      dsimp only [attrRange]
      exact ⟨by omega, by omega⟩
  | spread start stop argText =>
    intro e he
    rw [visitAttr] at he
    unfold jsxSpreadAttributeEdits at he
    rw [wfA] at hw
    simp only [decide_eq_true_eq] at hw
    simp only [List.mem_cons, List.not_mem_nil, or_false] at he
    dsimp only [attrRange]
    rcases he with rfl | rfl | rfl <;> (dsimp only [editBounds]; omega)

/-- Every edit of a well-formed attribute list's traversal acts inside
one of the attributes' offset ranges. -/
theorem bounds_visitAttrs (cfg : Options) (code : List Char) (cms : List JComment)
    (hc : ∀ c ∈ cms, c.start + 2 ≤ c.stop) (attrs : List JAttr)
    (hw : wfAs code attrs = true) :
    ∀ e ∈ visitAttrs cfg code cms attrs,
      ∃ a ∈ attrs, (attrRange a).1 ≤ (editBounds e).1 ∧
        (editBounds e).2 ≤ (attrRange a).2 := by
  cases attrs with
  | nil => intro e he; exact absurd he (List.not_mem_nil e)
  | cons a rest =>
    rw [wfAs, Bool.and_eq_true] at hw
    intro e he
    rw [visitAttrs, List.mem_append] at he
    rcases he with he | he
    · exact ⟨a, List.mem_cons_self a rest, bounds_visitAttr cfg code cms hc a hw.1 e he⟩
    · obtain ⟨a', ha', hb⟩ := bounds_visitAttrs cfg code cms hc rest hw.2 e he
      exact ⟨a', List.mem_cons_of_mem a ha', hb⟩
end

/-- Claim C9: non-JSX content passes through untouched.  For any source
region disjoint from every JSX tree of a well-formed parse, the only edit
the transform may emit that touches the region's interior is the
end-of-file import insertion, which prepends at the top of the file
body. -/
theorem c9_non_jsx_frame (cfg : Options) (code : List Char) (p : JProgram) (lo hi : Nat)
    (hc : ∀ c ∈ p.comments, c.start + 2 ≤ c.stop)
    (hw : wfTs code p.trees = true)
    (hdisj : ∀ t ∈ p.trees, hi ≤ treeStart t ∨ treeStop t ≤ lo) :
    ∀ e ∈ visitProgram cfg code p, touches lo hi e = true →
      e = Edit.prependString p.bodyStart (importStmt cfg) := by
  intro e he htouch
  unfold visitProgram at he
  rw [List.mem_append] at he
  rcases he with he | he
  · exfalso
    obtain ⟨t, htm, hb⟩ := bounds_visitTrees cfg code p.comments hc false p.trees hw e he
    have hd := hdisj t htm
    cases e <;>
      (simp only [touches, Bool.and_eq_true, decide_eq_true_eq] at htouch;
       dsimp only [editBounds] at hb;
       rcases hd with hd | hd <;> omega)
  · unfold programExitEdits at he
    split at he
    · simp only [List.mem_cons, List.not_mem_nil, or_false] at he
      exact he
    · exact absurd he (List.not_mem_nil e)

/-- Concrete instantiation of claim C9 on `x;<a/>` with the import option
set: the region of the leading statement `x;` (offsets 0 to 2) is touched
only by the import insertion at the top of the body. -/
theorem c9_non_jsx_frame_witness :
    Edit.prependString 1 (importStmt { imp := ImportOpt.str "preact".data })
      = Edit.prependString 1 (importStmt { imp := ImportOpt.str "preact".data }) :=
  c9_non_jsx_frame { imp := ImportOpt.str "preact".data } "x;<a/>".data
    (JProgram.mk 1 [JTree.elem 2 6 3 4 (.ident "a".data) [] [] none] []) 0 2
    (by decide) (by decide) (by decide)
    (Edit.prependString 1 (importStmt { imp := ImportOpt.str "preact".data }))
    (by decide) (by decide)
